import Mathlib

/-!
# ESP32 environment / obstacle monitor: `main/main.c`

A shallow embedding of the DHT11 bit-banging driver (`wait_for_signal`,
`fetch_dht11_data`), of the obstacle latch (`object_nearby`,
`obstacle_handler`) and of the poll loop body of `app_main`, followed by the
properties established about them.

Hardware is an oracle: the `k`-th call of `esp_timer_get_time` and the `k`-th
call of `gpio_get_level` return the `k`-th sample of two streams, and the
program state counts how many samples of each stream were consumed.
Timestamps are `int64_t` microseconds since boot; two such values subtract
without overflow, so the 64-bit subtraction is integer subtraction.  The
narrowing `(int)` of the elapsed time is kept explicit (`toInt32`).
-/

namespace Dht

/-! ## Constants and machine integers -/

/-- Pin of the DHT11 data line (`#define DHT_DATA_PIN 4`). -/
def DHT_DATA_PIN : Int := 4

/-- Pin of the obstacle sensor (`#define OBSTACLE_SENSOR_PIN 27`). -/
def OBSTACLE_SENSOR_PIN : Int := 27

/-- Conversion of a 64-bit value to C `int` (32-bit two's complement). -/
def toInt32 (x : Int) : Int := (x + 2147483648) % 4294967296 - 2147483648

/-! ## Hardware oracle and program state -/

/-- Direction modes of a GPIO pin that the program uses. -/
inductive GpioMode where
  | input
  | output
  | outputOD
  deriving DecidableEq, Repr

/-- Sample streams of the two hardware reads. -/
structure Env where
  /-- The value returned by the `k`-th call of `esp_timer_get_time`. -/
  clock : Nat → Int
  /-- The value returned by the `k`-th call of `gpio_get_level`, per pin. -/
  gpio : Nat → Int → Int

/-- Program-visible hardware state. -/
structure St where
  /-- Number of clock samples consumed so far. -/
  t : Nat
  /-- Number of line samples consumed so far. -/
  g : Nat
  /-- Direction mode of the DHT data line. -/
  mode : GpioMode
  /-- Level last written to the DHT data line. -/
  level : Int
  deriving DecidableEq, Repr

/-- Model of `gpio_set_direction(DHT_DATA_PIN, m)`. -/
def gpio_set_direction (m : GpioMode) (s : St) : St := { s with mode := m }

/-- Model of `gpio_set_level(DHT_DATA_PIN, v)`. -/
def gpio_set_level (v : Int) (s : St) : St := { s with level := v }

/-! ## wait_for_signal -/

/-- The `while` loop of `wait_for_signal`; `fuel` bounds the number of polls,
`none` means the bound was reached with the loop still running. -/
def waitLoop (env : Env) (pin lvl timeout_us start : Int) : Nat → St → Option (Int × St)
  | 0, _ => none
  | fuel + 1, s =>
    if env.gpio s.g pin ≠ lvl then
      if env.clock s.t - start > timeout_us then
        some (-1, { s with t := s.t + 1, g := s.g + 1 })
      else
        waitLoop env pin lvl timeout_us start fuel { s with t := s.t + 1, g := s.g + 1 }
    else
      some (toInt32 (env.clock s.t - start), { s with t := s.t + 1, g := s.g + 1 })

/-- Model of `wait_for_signal(pin, level, timeout_us)`: snapshot the clock, then
poll. -/
def wait_for_signal (env : Env) (pin lvl timeout_us : Int) (fuel : Nat) (s : St) :
    Option (Int × St) :=
  waitLoop env pin lvl timeout_us (env.clock s.t) fuel { s with t := s.t + 1 }

/-! ## fetch_dht11_data -/

/-- Values of the return code and of the two out-parameters after a run. -/
structure FetchResult where
  ret : Int
  temp_out : Int
  hum_out : Int
  deriving DecidableEq, Repr

/-- Body of the capture loop after both waits of iteration `i`:
`if (high_duration > 40) bits[i / 8] |= (1 << (7 - (i % 8)));` on `uint8_t`. -/
def storeBit (bits : List Nat) (i : Nat) (high_duration : Int) : List Nat :=
  if high_duration > 40 then
    bits.set (i / 8) ((bits.getD (i / 8) 0 ||| (1 <<< (7 - i % 8))) % 256)
  else bits

/-- Phase 3, `for (int i = ...; i < 40; i++)`, with `n` iterations left. The
inner `none` is the early `return -1`. -/
def captureLoop (env : Env) (fuel : Nat) : Nat → Nat → List Nat → St →
    Option (Option (List Nat) × St)
  | 0, _, bits, s => some (some bits, s)
  | n + 1, i, bits, s =>
    match wait_for_signal env DHT_DATA_PIN 1 100 fuel s with
    | none => none
    | some (r, s1) =>
      if r = -1 then some (none, s1)
      else
        match wait_for_signal env DHT_DATA_PIN 0 100 fuel s1 with
        | none => none
        | some (high_duration, s2) =>
          if high_duration = -1 then some (none, s2)
          else captureLoop env fuel n (i + 1) (storeBit bits i high_duration) s2

/-- Phase 4: checksum test and write of the out-parameters. -/
def validate (bits : List Nat) (temp_out hum_out : Int) : FetchResult :=
  if bits.getD 4 0 = (bits.getD 0 0 + bits.getD 1 0 + bits.getD 2 0 + bits.getD 3 0) &&& 0xFF then
    { ret := 0, temp_out := (bits.getD 2 0 : Int), hum_out := (bits.getD 0 0 : Int) }
  else
    { ret := -2, temp_out := temp_out, hum_out := hum_out }

/-- Phase 1 and the release of the line: output mode, low for 20 ms, high for
30 us, then input mode. The two delays read no sample. -/
def hostStart (s : St) : St :=
  gpio_set_direction .input
    (gpio_set_level 1 (gpio_set_level 0 (gpio_set_direction .output s)))

/-- Model of `fetch_dht11_data(&temp, &hum)`; `temp_out`, `hum_out` are the
values the two cells hold at entry. -/
def fetch_dht11_data (env : Env) (fuel : Nat) (temp_out hum_out : Int) (s : St) :
    Option (FetchResult × St) :=
  let timedOut : FetchResult := { ret := -1, temp_out := temp_out, hum_out := hum_out }
  match wait_for_signal env DHT_DATA_PIN 0 100 fuel (hostStart s) with
  | none => none
  | some (r1, s1) =>
    if r1 = -1 then some (timedOut, s1)
    else
      match wait_for_signal env DHT_DATA_PIN 1 100 fuel s1 with
      | none => none
      | some (r2, s2) =>
        if r2 = -1 then some (timedOut, s2)
        else
          match wait_for_signal env DHT_DATA_PIN 0 100 fuel s2 with
          | none => none
          | some (r3, s3) =>
            if r3 = -1 then some (timedOut, s3)
            else
              match captureLoop env fuel 40 0 [0, 0, 0, 0, 0] s3 with
              | none => none
              | some (none, s4) => some (timedOut, s4)
              | some (some bits, s4) => some (validate bits temp_out hum_out, s4)

/-! ## setup_hardware, the latch and the poll loop -/

/-- Model of `setup_hardware` on the data line: open-drain output, level 1. The
obstacle pin configuration does not touch the data line. -/
def setup_hardware (s : St) : St :=
  gpio_set_level 1 (gpio_set_direction .outputOD s)

/-- Model of `obstacle_handler`: `object_nearby = true`. -/
def obstacle_handler (_object_nearby : Bool) : Bool := true

/-- Lines printed by the poll loop. -/
inductive Msg where
  | obstacle
  | room (temp hum : Int)
  | timeout
  | checksum
  deriving DecidableEq, Repr

/-- The read-then-clear of `object_nearby` in the poll loop: whether the event
was reported, and the flag afterwards. -/
def drain (object_nearby : Bool) : Bool × Bool :=
  if object_nearby then (true, false) else (false, object_nearby)

/-- The report of a run's return code in the poll loop. -/
def report (r : FetchResult) : List Msg :=
  if r.ret = 0 then [Msg.room r.temp_out r.hum_out]
  else if r.ret = -1 then [Msg.timeout]
  else if r.ret = -2 then [Msg.checksum]
  else []

/-- One iteration of `while (1)` in `app_main`: lines printed, flag and
hardware state afterwards. -/
def pollIteration (env : Env) (fuel : Nat) (object_nearby : Bool) (s : St) :
    Option (List Msg × Bool × St) :=
  let d := drain object_nearby
  match fetch_dht11_data env fuel 0 0 s with
  | none => none
  | some (r, s1) =>
    some ((if d.1 then [Msg.obstacle] else []) ++ report r, d.2, s1)

/-! ## Vocabulary of the statements -/

/-- Elapsed time at the clock sample that follows poll `j` of a wait entered in
state `s`. -/
def elapsedAt (env : Env) (s : St) (j : Nat) : Int :=
  env.clock (s.t + 1 + j) - env.clock s.t

/-- State of a wait entered in `s` that returns at its poll `j` (polls are
numbered from 0): `j + 2` clock samples and `j + 1` line samples consumed. -/
def afterPolls (s : St) (j : Nat) : St :=
  { s with t := s.t + (j + 2), g := s.g + (j + 1) }

/-- Poll `j` is the first to see the target level, and no clock sample before it
exceeded the timeout. -/
def FirstMatch (env : Env) (pin lvl timeout_us : Int) (s : St) (j : Nat) : Prop :=
  (∀ i, i < j → env.gpio (s.g + i) pin ≠ lvl ∧ elapsedAt env s i ≤ timeout_us) ∧
    env.gpio (s.g + j) pin = lvl

/-- Polls `0..j` all miss the target level and the clock sample after poll `j` is
the first with `now - start > timeout_us`. -/
def FirstTimeout (env : Env) (pin lvl timeout_us : Int) (s : St) (j : Nat) : Prop :=
  (∀ i, i ≤ j → env.gpio (s.g + i) pin ≠ lvl) ∧
    (∀ i, i < j → elapsedAt env s i ≤ timeout_us) ∧ timeout_us < elapsedAt env s j

/-- Before any poll sees the target level, a clock sample taken after a
mismatching poll has `now - start > timeout_us`. -/
def TimesOut (env : Env) (pin lvl timeout_us : Int) (s : St) : Prop :=
  ∃ j, (∀ i, i ≤ j → env.gpio (s.g + i) pin ≠ lvl) ∧ timeout_us < elapsedAt env s j

/-- Target level of wait number `k` of a run (numbered from 0): the response
waits ask for 0, 1, 0 and each capture iteration for 1 then 0. -/
def waitLevel (k : Nat) : Int := ((k % 2 : Nat) : Int)

/-- Waits number `k, ..., k + n - 1` of a run, all of them performed and none of
them returning -1: their results and the state after the last one. -/
def waitSeq (env : Env) (fuel : Nat) : Nat → Nat → St → Option (List Int × St)
  | 0, _, s => some ([], s)
  | n + 1, k, s =>
    match wait_for_signal env DHT_DATA_PIN (waitLevel k) 100 fuel s with
    | none => none
    | some (r, s1) =>
      if r = -1 then none
      else
        match waitSeq env fuel n (k + 1) s1 with
        | none => none
        | some (rs, s2) => some (r :: rs, s2)

/-- Effect on the buffer of consecutive capture iterations starting at `i`, given
the results of their waits (two per iteration, the second is the high pulse). -/
def storeAll : List Int → Nat → List Nat → List Nat
  | _ :: d :: rest, i, bits => storeAll rest (i + 1) (storeBit bits i d)
  | _, _, bits => bits

/-- Buffer built by the capture loop when its 80 waits returned `ds`. -/
def capturedOf (ds : List Int) : List Nat := storeAll ds 0 [0, 0, 0, 0, 0]

/-- Buffer captured by a run whose 83 waits returned `rs`. -/
def captured (rs : List Int) : List Nat := capturedOf (rs.drop 3)

/-- High-pulse duration measured in capture iteration `i` of a run whose waits
returned `rs`. -/
def highDuration (rs : List Int) (i : Nat) : Int := rs.getD (4 + 2 * i) 0

/-- Bit `i` in capture order of a byte buffer, most significant bit first. -/
def wireBit (bytes : List Nat) (i : Nat) : Bool := (bytes.getD (i / 8) 0).testBit (7 - i % 8)

/-- Numeric value of a bit. -/
def bitVal (b : Bool) : Nat := if b then 1 else 0

/-- A line that toggles at every sample, so that every wait of a run sees its
target level at the first poll, with clock samples such that waits outside the
high pulses measure 50 us and the high pulse of iteration `i` measures `high i`. -/
def pulseEnv (high : Nat → Int) : Env where
  clock := fun k =>
    200 * ((k / 2 : Nat) : Int) +
      (if k % 2 = 0 then 0
       else if 3 ≤ k / 2 ∧ (k / 2) % 2 = 0 then high ((k / 2 - 4) / 2) else 50)
  gpio := fun k _ => ((k % 2 : Nat) : Int)

/-- Elapsed time that wait number `n` of a run measures under `pulseEnv high`. -/
def pulseDur (high : Nat → Int) (n : Nat) : Int :=
  if 3 ≤ n ∧ n % 2 = 0 then high ((n - 4) / 2) else 50

/-- Results of waits number `k, ..., k + n - 1` under `pulseEnv high`. -/
def pulseResults (high : Nat → Int) : Nat → Nat → List Int
  | 0, _ => []
  | n + 1, k => pulseDur high k :: pulseResults high n (k + 1)

/-- The waveform that encodes `bytes` most significant bit first: a high pulse of
70 us for a 1 and of 26 us for a 0. -/
def waveform (bytes : List Nat) : Env :=
  pulseEnv (fun i => if wireBit bytes i then 70 else 26)

/-- A monotonic clock that jumps by `2^32 - 1` us between the entry snapshot and
the next sample, over a line that is always low. -/
def wrapEnv : Env where
  clock := fun k => if k = 0 then 0 else 4294967295
  gpio := fun _ _ => 0

/-- A line that never changes level, under a clock ticking 10 us per sample. -/
def stuckEnv (v : Int) : Env where
  clock := fun k => 10 * (k : Int)
  gpio := fun _ _ => v

/-- State right after power-up used in the examples. -/
def bootState : St := { t := 0, g := 0, mode := .input, level := 0 }

/-- The sum of the four data bytes modulo 256. -/
def sumMod256 (bits : List Nat) : Nat :=
  (bits.getD 0 0 + bits.getD 1 0 + bits.getD 2 0 + bits.getD 3 0) % 256

/-- The buffer with bit `k` of `bits[4]` flipped and the other bytes unchanged. -/
def flipChecksumBit (bits : List Nat) (k : Nat) : List Nat :=
  bits.set 4 (bits.getD 4 0 ^^^ (1 <<< k))

/-- Bytes of Scenario A: humidity 45, temperature 22, checksum 0x43. -/
def scenarioA : List Nat := [0x2D, 0x00, 0x16, 0x00, 0x43]

/-- Bytes of Scenario C: Scenario A with the checksum byte altered to 0x44. -/
def scenarioC : List Nat := [0x2D, 0x00, 0x16, 0x00, 0x44]

/-- State in which a run over a synthetic waveform ends: 83 waits, each of two
clock samples and one line sample. -/
def endState : St := { t := 166, g := 83, mode := .input, level := 1 }

/-- High pulses alternating between exactly 40 us and exactly 41 us. -/
def boundaryHigh (i : Nat) : Int := if i % 2 = 0 then 40 else 41

/-- State of a run over a synthetic waveform after its three response waits. -/
def afterResponse : St := { t := 6, g := 3, mode := .input, level := 1 }

/-- A line that misses the target level 0 at the first poll and shows it at the
second, with the clock sample after the first poll exactly 100 us after entry. -/
def exactEnv : Env where
  clock := fun k => if k = 0 then 0 else if k = 1 then 100 else 130
  gpio := fun k _ => if k = 0 then 1 else 0

/-! ## Machine integers -/

theorem toInt32_of_fits {x : Int} (h0 : 0 ≤ x) (h1 : x < 2147483648) : toInt32 x = x := by
  unfold toInt32
  omega

/-! ## The polling loop -/

theorem waitLoop_timeout (env : Env) (pin lvl timeout_us start : Int) :
    ∀ (j : Nat) (s : St) (fuel : Nat), j < fuel →
      (∀ i, i ≤ j → env.gpio (s.g + i) pin ≠ lvl) →
      (∀ i, i < j → env.clock (s.t + i) - start ≤ timeout_us) →
      timeout_us < env.clock (s.t + j) - start →
      waitLoop env pin lvl timeout_us start fuel s =
        some (-1, { s with t := s.t + (j + 1), g := s.g + (j + 1) }) := by
  intro j
  induction j with
  | zero =>
    intro s fuel hf hm _ ht
    obtain ⟨f, rfl⟩ : ∃ f, fuel = f + 1 := ⟨fuel - 1, by omega⟩
    have h0 := hm 0 (Nat.le_refl 0)
    simp only [Nat.add_zero] at h0 ht
    simp [waitLoop, h0, ht]
  | succ j ih =>
    intro s fuel hf hm hc ht
    obtain ⟨f, rfl⟩ : ∃ f, fuel = f + 1 := ⟨fuel - 1, by omega⟩
    have h0 := hm 0 (Nat.zero_le _)
    have c0 := hc 0 (Nat.succ_pos _)
    simp only [Nat.add_zero] at h0 c0
    have c0' : ¬ timeout_us < env.clock s.t - start := by omega
    have := ih { s with t := s.t + 1, g := s.g + 1 } f (by omega)
      (fun i hi => by have := hm (i + 1) (by omega); simpa [Nat.add_assoc, Nat.add_comm 1 i] using this)
      (fun i hi => by have := hc (i + 1) (by omega); simpa [Nat.add_assoc, Nat.add_comm 1 i] using this)
      (by simpa [Nat.add_assoc, Nat.add_comm 1 j] using ht)
    simp only [waitLoop, ne_eq, h0, not_false_eq_true, ↓reduceIte, gt_iff_lt, c0', this]
    simp [Nat.add_assoc, Nat.add_comm 1 j]
    try omega

theorem waitLoop_match (env : Env) (pin lvl timeout_us start : Int) :
    ∀ (j : Nat) (s : St) (fuel : Nat), j < fuel →
      (∀ i, i < j → env.gpio (s.g + i) pin ≠ lvl ∧ env.clock (s.t + i) - start ≤ timeout_us) →
      env.gpio (s.g + j) pin = lvl →
      waitLoop env pin lvl timeout_us start fuel s =
        some (toInt32 (env.clock (s.t + j) - start),
          { s with t := s.t + (j + 1), g := s.g + (j + 1) }) := by
  intro j
  induction j with
  | zero =>
    intro s fuel hf _ hm
    obtain ⟨f, rfl⟩ : ∃ f, fuel = f + 1 := ⟨fuel - 1, by omega⟩
    simp only [Nat.add_zero] at hm
    simp [waitLoop, hm]
  | succ j ih =>
    intro s fuel hf hc hm
    obtain ⟨f, rfl⟩ : ∃ f, fuel = f + 1 := ⟨fuel - 1, by omega⟩
    have h0 := hc 0 (Nat.succ_pos _)
    simp only [Nat.add_zero] at h0
    have c0' : ¬ timeout_us < env.clock s.t - start := by omega
    have := ih { s with t := s.t + 1, g := s.g + 1 } f (by omega)
      (fun i hi => by have := hc (i + 1) (by omega); simpa [Nat.add_assoc, Nat.add_comm 1 i] using this)
      (by simpa [Nat.add_assoc, Nat.add_comm 1 j] using hm)
    simp only [waitLoop, ne_eq, h0.1, not_false_eq_true, ↓reduceIte, gt_iff_lt, c0', this]
    simp [Nat.add_assoc, Nat.add_comm 1 j]
    try omega


theorem waitLoop_inv (env : Env) (pin lvl timeout_us start : Int) :
    ∀ (fuel : Nat) (s : St) (r : Int) (s' : St),
      waitLoop env pin lvl timeout_us start fuel s = some (r, s') →
      ∃ j, j < fuel ∧ s' = { s with t := s.t + (j + 1), g := s.g + (j + 1) } ∧
        ((r = -1 ∧ (∀ i, i ≤ j → env.gpio (s.g + i) pin ≠ lvl) ∧
            (∀ i, i < j → env.clock (s.t + i) - start ≤ timeout_us) ∧
            timeout_us < env.clock (s.t + j) - start) ∨
          (r = toInt32 (env.clock (s.t + j) - start) ∧
            (∀ i, i < j → env.gpio (s.g + i) pin ≠ lvl ∧
              env.clock (s.t + i) - start ≤ timeout_us) ∧
            env.gpio (s.g + j) pin = lvl)) := by
  intro fuel
  induction fuel with
  | zero => intro s r s' h; simp [waitLoop] at h
  | succ f ih =>
    intro s r s' h
    by_cases hg : env.gpio s.g pin = lvl
    · simp only [waitLoop, ne_eq, hg, not_true_eq_false, ↓reduceIte, Option.some.injEq,
        Prod.mk.injEq] at h
      refine ⟨0, Nat.succ_pos _, h.2.symm, Or.inr ⟨?_, ?_, ?_⟩⟩
      · simpa using h.1.symm
      · intro i hi; omega
      · simpa using hg
    · by_cases hc : timeout_us < env.clock s.t - start
      · simp only [waitLoop, ne_eq, hg, not_false_eq_true, ↓reduceIte, gt_iff_lt, hc,
          Option.some.injEq, Prod.mk.injEq] at h
        refine ⟨0, Nat.succ_pos _, h.2.symm, Or.inl ⟨h.1.symm, ?_, ?_, ?_⟩⟩
        · intro i hi
          have : i = 0 := by omega
          subst this; simpa using hg
        · intro i hi; omega
        · simpa using hc
      · simp only [waitLoop, ne_eq, hg, not_false_eq_true, ↓reduceIte, gt_iff_lt, hc] at h
        obtain ⟨j, hj, hs, hr⟩ := ih _ r s' h
        simp only at hs hr
        refine ⟨j + 1, by omega, ?_, ?_⟩
        · rw [hs]; simp [Nat.add_assoc, Nat.add_comm 1]
        · have key : ∀ i, s.t + 1 + i = s.t + (i + 1) := fun i => by omega
          have keyg : ∀ i, s.g + 1 + i = s.g + (i + 1) := fun i => by omega
          simp only [key, keyg] at hr
          rcases hr with ⟨h1, h2, h3, h4⟩ | ⟨h1, h2, h3⟩
          · refine Or.inl ⟨h1, ?_, ?_, h4⟩
            · intro i hi
              cases i with
              | zero => simpa using hg
              | succ i => exact h2 i (by omega)
            · intro i hi
              cases i with
              | zero => simp only [Nat.add_zero]; omega
              | succ i => exact h3 i (by omega)
          · refine Or.inr ⟨h1, ?_, h3⟩
            intro i hi
            cases i with
            | zero => exact ⟨by simpa using hg, by simp only [Nat.add_zero]; omega⟩
            | succ i => exact h2 i (by omega)

/-- A wait changes only the sample counters. -/
theorem wait_for_signal_frame (env : Env) (pin lvl timeout_us : Int) (fuel : Nat) (s : St)
    (r : Int) (s' : St) (h : wait_for_signal env pin lvl timeout_us fuel s = some (r, s')) :
    s'.mode = s.mode ∧ s'.level = s.level := by
  obtain ⟨j, _, hs, _⟩ := waitLoop_inv env pin lvl timeout_us _ fuel _ r s' h
  subst hs
  exact ⟨rfl, rfl⟩

/-- Under a strictly increasing clock the polling loop ends within `fuel + 1`
polls as soon as `fuel` covers the remaining time budget. -/
theorem waitLoop_terminates (env : Env) (pin lvl timeout_us start : Int)
    (hstrict : ∀ k, env.clock k < env.clock (k + 1)) :
    ∀ (fuel : Nat) (s : St), timeout_us < env.clock s.t - start + fuel →
      ∃ r s', waitLoop env pin lvl timeout_us start (fuel + 1) s = some (r, s') := by
  intro fuel
  induction fuel with
  | zero =>
    intro s h
    simp only [Nat.cast_zero, add_zero] at h
    by_cases hg : env.gpio s.g pin = lvl
    · exact ⟨_, _, by simp only [waitLoop, ne_eq, hg, not_true_eq_false, ↓reduceIte]; rfl⟩
    · exact ⟨_, _, by simp only [waitLoop, ne_eq, hg, not_false_eq_true, ↓reduceIte, gt_iff_lt, h]; rfl⟩
  | succ f ih =>
    intro s h
    by_cases hg : env.gpio s.g pin = lvl
    · exact ⟨_, _, by simp only [waitLoop, ne_eq, hg, not_true_eq_false, ↓reduceIte]; rfl⟩
    · by_cases hc : timeout_us < env.clock s.t - start
      · exact ⟨_, _, by
          simp only [waitLoop, ne_eq, hg, not_false_eq_true, ↓reduceIte, gt_iff_lt, hc]; rfl⟩
      · have hk := hstrict s.t
        obtain ⟨r, s', hr⟩ := ih { s with t := s.t + 1, g := s.g + 1 } (by
          simp only; push_cast at h; omega)
        refine ⟨r, s', ?_⟩
        rw [waitLoop]
        simp only [ne_eq, hg, not_false_eq_true, ↓reduceIte, gt_iff_lt, hc, hr]

/-- More fuel never changes a result already obtained. -/
theorem waitLoop_mono (env : Env) (pin lvl timeout_us start : Int) :
    ∀ (fuel fuel' : Nat) (s : St) (x : Int × St), fuel ≤ fuel' →
      waitLoop env pin lvl timeout_us start fuel s = some x →
      waitLoop env pin lvl timeout_us start fuel' s = some x := by
  intro fuel
  induction fuel with
  | zero => intro fuel' s x _ h; simp [waitLoop] at h
  | succ f ih =>
    intro fuel' s x hle h
    obtain ⟨f', rfl⟩ : ∃ f', fuel' = f' + 1 := ⟨fuel' - 1, by omega⟩
    rw [waitLoop] at h ⊢
    split_ifs at h ⊢ with h1 h2
    · exact h
    · exact ih f' _ x (by omega) h
    · exact h

/-! ## The run as a sequence of waits -/

theorem waitLevel_odd (i : Nat) : waitLevel (2 * i + 3) = 1 := by
  unfold waitLevel
  have : (2 * i + 3) % 2 = 1 := by omega
  simp [this]

theorem waitLevel_even (i : Nat) : waitLevel (2 * i + 3 + 1) = 0 := by
  unfold waitLevel
  have : (2 * i + 3 + 1) % 2 = 0 := by omega
  simp [this]

theorem waitSeq_succ_inv (env : Env) (fuel n k : Nat) (s s' : St) (rs : List Int)
    (h : waitSeq env fuel (n + 1) k s = some (rs, s')) :
    ∃ r s1 rs', wait_for_signal env DHT_DATA_PIN (waitLevel k) 100 fuel s = some (r, s1) ∧
      r ≠ -1 ∧ waitSeq env fuel n (k + 1) s1 = some (rs', s') ∧ rs = r :: rs' := by
  rw [waitSeq] at h
  split at h
  · simp at h
  · rename_i r s1 hw
    split_ifs at h with hr
    split at h
    · simp at h
    · rename_i rs' s2 hq
      simp only [Option.some.injEq, Prod.mk.injEq] at h
      exact ⟨r, s1, rs', hw, hr, by rw [hq, h.2], h.1.symm⟩

/-- When the waits of `m` capture iterations all succeed, the loop ends with the
buffer that `storeAll` computes from their results. -/
theorem captureLoop_of_waitSeq (env : Env) (fuel : Nat) :
    ∀ (m i : Nat) (bits : List Nat) (s s' : St) (rs : List Int),
      waitSeq env fuel (2 * m) (2 * i + 3) s = some (rs, s') →
      captureLoop env fuel m i bits s = some (some (storeAll rs i bits), s') := by
  intro m
  induction m with
  | zero =>
    intro i bits s s' rs h
    simp only [Nat.mul_zero, waitSeq, Option.some.injEq, Prod.mk.injEq] at h
    rw [← h.1, ← h.2]
    simp [captureLoop, storeAll]
  | succ m ih =>
    intro i bits s s' rs h
    have e : 2 * (m + 1) = 2 * m + 1 + 1 := by omega
    rw [e] at h
    obtain ⟨r1, s1, rs1, hw1, hr1, hq1, rfl⟩ := waitSeq_succ_inv env fuel _ _ s s' rs h
    obtain ⟨d, s2, rs2, hw2, hr2, hq2, rfl⟩ := waitSeq_succ_inv env fuel _ _ s1 s' rs1 hq1
    rw [waitLevel_odd] at hw1
    rw [waitLevel_even] at hw2
    have e2 : 2 * i + 3 + 1 + 1 = 2 * (i + 1) + 3 := by omega
    rw [e2] at hq2
    rw [captureLoop, hw1]
    simp only [hr1, ↓reduceIte, hw2, hr2]
    rw [ih (i + 1) _ s2 s' rs2 hq2]
    simp [storeAll]

/-- When the wait that follows `n` successful waits of the capture loop returns
-1, the loop returns early in the state that wait left. -/
theorem captureLoop_timeout (env : Env) (fuel : Nat) :
    ∀ (m i : Nat) (bits : List Nat) (s sn s' : St) (n : Nat) (rs : List Int), n < 2 * m →
      waitSeq env fuel n (2 * i + 3) s = some (rs, sn) →
      wait_for_signal env DHT_DATA_PIN (waitLevel (2 * i + 3 + n)) 100 fuel sn = some (-1, s') →
      captureLoop env fuel m i bits s = some (none, s') := by
  intro m
  induction m with
  | zero => intro i bits s sn s' n rs hn; omega
  | succ m ih =>
    intro i bits s sn s' n rs hn hseq hto
    match n, hseq, hto with
    | 0, hseq, hto =>
      simp only [waitSeq, Option.some.injEq, Prod.mk.injEq] at hseq
      rw [← hseq.2, Nat.add_zero, waitLevel_odd] at hto
      rw [captureLoop, hto]
      simp
    | 1, hseq, hto =>
      obtain ⟨r1, s1, rs1, hw1, hr1, hq1, rfl⟩ := waitSeq_succ_inv env fuel _ _ s sn rs hseq
      simp only [waitSeq, Option.some.injEq, Prod.mk.injEq] at hq1
      rw [← hq1.2, waitLevel_even] at hto
      rw [waitLevel_odd] at hw1
      rw [captureLoop, hw1]
      simp only [hr1, ↓reduceIte, hto]
    | n + 2, hseq, hto =>
      obtain ⟨r1, s1, rs1, hw1, hr1, hq1, rfl⟩ := waitSeq_succ_inv env fuel _ _ s sn rs hseq
      obtain ⟨d, s2, rs2, hw2, hr2, hq2, rfl⟩ := waitSeq_succ_inv env fuel _ _ s1 sn rs1 hq1
      rw [waitLevel_odd] at hw1
      rw [waitLevel_even] at hw2
      have e2 : 2 * i + 3 + 1 + 1 = 2 * (i + 1) + 3 := by omega
      rw [e2] at hq2
      have e3 : 2 * i + 3 + (n + 2) = 2 * (i + 1) + 3 + n := by omega
      rw [e3] at hto
      rw [captureLoop, hw1]
      simp only [hr1, ↓reduceIte, hw2, hr2]
      exact ih (i + 1) _ s2 sn s' n rs2 (by omega) hq2 hto

/-- A run whose 83 waits all succeed validates the captured buffer. -/
theorem fetch_of_waitSeq (env : Env) (fuel : Nat) (temp_out hum_out : Int) (s s' : St)
    (rs : List Int) (h : waitSeq env fuel 83 0 (hostStart s) = some (rs, s')) :
    fetch_dht11_data env fuel temp_out hum_out s =
      some (validate (captured rs) temp_out hum_out, s') := by
  obtain ⟨r1, s1, rs1, hw1, hr1, hq1, rfl⟩ := waitSeq_succ_inv env fuel 82 0 _ s' rs h
  obtain ⟨r2, s2, rs2, hw2, hr2, hq2, rfl⟩ := waitSeq_succ_inv env fuel 81 1 _ s' rs1 hq1
  obtain ⟨r3, s3, rs3, hw3, hr3, hq3, rfl⟩ := waitSeq_succ_inv env fuel 80 2 _ s' rs2 hq2
  have hc := captureLoop_of_waitSeq env fuel 40 0 [0, 0, 0, 0, 0] s3 s' rs3 hq3
  have l0 : waitLevel 0 = 0 := rfl
  have l1 : waitLevel 1 = 1 := rfl
  have l2 : waitLevel 2 = 0 := rfl
  rw [l0] at hw1
  rw [l1] at hw2
  rw [l2] at hw3
  unfold fetch_dht11_data
  simp only [hw1, hr1, ↓reduceIte, hw2, hr2, hw3, hr3, hc]
  rfl

/-- A run in which the wait that follows `n < 83` successful waits returns -1
returns -1 in the state that wait left, the out-parameters untouched. -/
theorem fetch_of_timeout (env : Env) (fuel : Nat) (temp_out hum_out : Int) (s sn s' : St)
    (n : Nat) (hn : n < 83) (rs : List Int)
    (hseq : waitSeq env fuel n 0 (hostStart s) = some (rs, sn))
    (hto : wait_for_signal env DHT_DATA_PIN (waitLevel n) 100 fuel sn = some (-1, s')) :
    fetch_dht11_data env fuel temp_out hum_out s =
      some ({ ret := -1, temp_out := temp_out, hum_out := hum_out }, s') := by
  have l0 : waitLevel 0 = 0 := rfl
  have l1 : waitLevel 1 = 1 := rfl
  have l2 : waitLevel 2 = 0 := rfl
  match n, hn, hseq, hto with
  | 0, _, hseq, hto =>
    simp only [waitSeq, Option.some.injEq, Prod.mk.injEq] at hseq
    rw [← hseq.2, l0] at hto
    unfold fetch_dht11_data
    simp only [hto, ↓reduceIte]
  | 1, _, hseq, hto =>
    obtain ⟨r1, s1, rs1, hw1, hr1, hq1, rfl⟩ := waitSeq_succ_inv env fuel _ _ _ sn rs hseq
    simp only [waitSeq, Option.some.injEq, Prod.mk.injEq] at hq1
    rw [← hq1.2, l1] at hto
    rw [l0] at hw1
    unfold fetch_dht11_data
    simp only [hw1, hr1, hto, ↓reduceIte]
  | 2, _, hseq, hto =>
    obtain ⟨r1, s1, rs1, hw1, hr1, hq1, rfl⟩ := waitSeq_succ_inv env fuel _ _ _ sn rs hseq
    obtain ⟨r2, s2, rs2, hw2, hr2, hq2, rfl⟩ := waitSeq_succ_inv env fuel _ _ _ sn rs1 hq1
    simp only [waitSeq, Option.some.injEq, Prod.mk.injEq] at hq2
    rw [← hq2.2, l2] at hto
    rw [l0] at hw1
    rw [l1] at hw2
    unfold fetch_dht11_data
    simp only [hw1, hr1, hw2, hr2, hto, ↓reduceIte]
  | n + 3, hn, hseq, hto =>
    obtain ⟨r1, s1, rs1, hw1, hr1, hq1, rfl⟩ := waitSeq_succ_inv env fuel _ _ _ sn rs hseq
    obtain ⟨r2, s2, rs2, hw2, hr2, hq2, rfl⟩ := waitSeq_succ_inv env fuel _ _ _ sn rs1 hq1
    obtain ⟨r3, s3, rs3, hw3, hr3, hq3, rfl⟩ := waitSeq_succ_inv env fuel _ _ _ sn rs2 hq2
    rw [l0] at hw1
    rw [l1] at hw2
    rw [l2] at hw3
    have e : n + 3 = 2 * 0 + 3 + n := by omega
    rw [e] at hto
    have hc := captureLoop_timeout env fuel 40 0 [0, 0, 0, 0, 0] s3 sn s' n rs3 (by omega) hq3 hto
    unfold fetch_dht11_data
    simp only [hw1, hr1, ↓reduceIte, hw2, hr2, hw3, hr3, hc]

/-! ## Bit packing -/

theorem storeBit_length (bits : List Nat) (i : Nat) (d : Int) :
    (storeBit bits i d).length = bits.length := by
  unfold storeBit
  split_ifs <;> simp

theorem storeBit_lt (bits : List Nat) (i : Nat) (d : Int)
    (hb : ∀ k, bits.getD k 0 < 256) (k : Nat) : (storeBit bits i d).getD k 0 < 256 := by
  unfold storeBit
  split_ifs with hd
  · have hk := hb k
    simp only [List.getD_eq_getElem?_getD, List.getElem?_set] at hk ⊢
    split_ifs with h1 h2
    · simp only [Option.getD_some]
      exact Nat.mod_lt _ (by norm_num)
    · simp
    · exact hk
  · exact hb k

theorem storeBit_testBit (bits : List Nat) (i : Nat) (d : Int) (k m : Nat) (hm : m < 8)
    (hi : i / 8 < bits.length) :
    ((storeBit bits i d).getD k 0).testBit m = true ↔
      (bits.getD k 0).testBit m = true ∨ (40 < d ∧ k = i / 8 ∧ m = 7 - i % 8) := by
  unfold storeBit
  split_ifs with hd
  · simp only [List.getD_eq_getElem?_getD, List.getElem?_set]
    by_cases hk : i / 8 = k
    · subst hk
      have e256 : (256 : Nat) = 2 ^ 8 := by norm_num
      simp only [↓reduceIte, hi, Option.getD_some, e256, Nat.testBit_mod_two_pow, hm,
        decide_True, Nat.testBit_or, Nat.one_shiftLeft, Nat.testBit_two_pow, Bool.true_and,
        Bool.or_eq_true, decide_eq_true_eq]
      constructor
      · rintro (h | h)
        · exact Or.inl h
        · exact Or.inr ⟨hd, trivial, h.symm⟩
      · rintro (h | ⟨_, _, h⟩)
        · exact Or.inl h
        · exact Or.inr h.symm
    · simp only [hk, ↓reduceIte]
      constructor
      · intro h; exact Or.inl h
      · rintro (h | ⟨_, h, _⟩)
        · exact h
        · exact absurd h.symm hk
  · constructor
    · intro h; exact Or.inl h
    · rintro (h | ⟨h, _, _⟩)
      · exact h
      · exact absurd h hd

theorem storeAll_length : ∀ (ds : List Int) (i : Nat) (bits : List Nat),
    (storeAll ds i bits).length = bits.length
  | [], _, _ => by simp [storeAll]
  | [_], _, _ => by simp [storeAll]
  | _ :: d :: rest, i, bits => by
    rw [storeAll, storeAll_length rest (i + 1) _, storeBit_length]

theorem storeAll_lt : ∀ (ds : List Int) (i : Nat) (bits : List Nat),
    (∀ k, bits.getD k 0 < 256) → ∀ k, (storeAll ds i bits).getD k 0 < 256
  | [], _, _, hb, k => by simpa [storeAll] using hb k
  | [_], _, _, hb, k => by simpa [storeAll] using hb k
  | _ :: d :: rest, i, bits, hb, k => by
    rw [storeAll]
    exact storeAll_lt rest (i + 1) _ (storeBit_lt bits i d hb) k

theorem getD_cons_cons (r d : Int) (rest : List Int) (n : Nat) :
    (r :: d :: rest).getD (2 * (n + 1) + 1) 0 = rest.getD (2 * n + 1) 0 := by
  have e : 2 * (n + 1) + 1 = (2 * n + 1) + 1 + 1 := by omega
  rw [e]
  simp

/-- Bit `m` of byte `k` after the capture iterations `i, i + 1, ...` is set exactly
when it was set before or one of these iterations measured more than 40 us and
writes that position. -/
theorem storeAll_testBit : ∀ (ds : List Int) (i : Nat) (bits : List Nat) (k m : Nat),
    m < 8 → i + ds.length / 2 ≤ 8 * bits.length →
    (((storeAll ds i bits).getD k 0).testBit m = true ↔
      (bits.getD k 0).testBit m = true ∨
        ∃ n, 2 * n + 1 < ds.length ∧ 40 < ds.getD (2 * n + 1) 0 ∧
          k = (i + n) / 8 ∧ m = 7 - (i + n) % 8)
  | [], _, _, _, _, _, _ => by simp [storeAll]
  | [_], _, _, _, _, _, _ => by simp [storeAll]
  | r :: d :: rest, i, bits, k, m, hm, hlen => by
    have hl : (r :: d :: rest).length = rest.length + 2 := rfl
    rw [hl] at hlen
    have hlen' : i + 1 + rest.length / 2 ≤ 8 * (storeBit bits i d).length := by
      rw [storeBit_length]; omega
    have hi : i / 8 < bits.length := by omega
    rw [storeAll, storeAll_testBit rest (i + 1) _ k m hm hlen', storeBit_testBit bits i d k m hm hi]
    constructor
    · rintro ((h | ⟨h1, h2, h3⟩) | ⟨n, h1, h2, h3, h4⟩)
      · exact Or.inl h
      · exact Or.inr ⟨0, by simp, by simpa using h1, by simpa using h2, by simpa using h3⟩
      · refine Or.inr ⟨n + 1, by rw [hl]; omega, by rw [getD_cons_cons]; exact h2, ?_, ?_⟩
        · rw [h3]; congr 1; omega
        · rw [h4]; congr 2; omega
    · rintro (h | ⟨n, h1, h2, h3, h4⟩)
      · exact Or.inl (Or.inl h)
      · cases n with
        | zero =>
          exact Or.inl (Or.inr ⟨by simpa using h2, by simpa using h3, by simpa using h4⟩)
        | succ n =>
          rw [getD_cons_cons] at h2
          refine Or.inr ⟨n, by rw [hl] at h1; omega, h2, ?_, ?_⟩
          · rw [h3]; congr 1; omega
          · rw [h4]; congr 2; omega

theorem waitSeq_length (env : Env) (fuel : Nat) :
    ∀ (n k : Nat) (s s' : St) (rs : List Int),
      waitSeq env fuel n k s = some (rs, s') → rs.length = n := by
  intro n
  induction n with
  | zero =>
    intro k s s' rs h
    simp only [waitSeq, Option.some.injEq, Prod.mk.injEq] at h
    rw [← h.1]; rfl
  | succ n ih =>
    intro k s s' rs h
    obtain ⟨r, s1, rs', _, _, hq, rfl⟩ := waitSeq_succ_inv env fuel n k s s' rs h
    simp [ih _ _ _ _ hq]

theorem capturedOf_length (ds : List Int) : (capturedOf ds).length = 5 := by
  unfold capturedOf
  rw [storeAll_length]
  rfl

theorem capturedOf_lt (ds : List Int) (k : Nat) : (capturedOf ds).getD k 0 < 256 := by
  unfold capturedOf
  apply storeAll_lt
  intro k
  match k with
  | 0 | 1 | 2 | 3 | 4 => simp
  | k + 5 => simp

/-- Bit `i` of the buffer built by the capture loop is 1 exactly when the second
wait of iteration `i` measured more than 40 us. -/
theorem capturedOf_wireBit (ds : List Int) (hds : ds.length = 80) (i : Nat) (hi : i < 40) :
    wireBit (capturedOf ds) i = true ↔ 40 < ds.getD (2 * i + 1) 0 := by
  unfold wireBit capturedOf
  rw [storeAll_testBit ds 0 _ (i / 8) (7 - i % 8) (by omega) (by rw [hds]; simp)]
  have hz : ([0, 0, 0, 0, 0] : List Nat).getD (i / 8) 0 = 0 := by
    have : i / 8 < 5 := by omega
    interval_cases (i / 8) <;> rfl
  rw [hz]
  simp only [Nat.zero_testBit, Bool.false_eq_true, false_or, Nat.zero_add]
  constructor
  · rintro ⟨n, _, h2, h3, h4⟩
    have : i = n := by omega
    rw [this]; exact h2
  · intro h
    exact ⟨i, by rw [hds]; omega, h, rfl, rfl⟩

theorem captured_length (rs : List Int) : (captured rs).length = 5 :=
  capturedOf_length _

theorem captured_lt (rs : List Int) (k : Nat) : (captured rs).getD k 0 < 256 :=
  capturedOf_lt _ k

theorem captured_wireBit (rs : List Int) (hrs : rs.length = 83) (i : Nat) (hi : i < 40) :
    wireBit (captured rs) i = true ↔ 40 < highDuration rs i := by
  unfold captured highDuration
  rw [capturedOf_wireBit (rs.drop 3) (by simp [hrs]) i hi]
  simp only [List.getD_eq_getElem?_getD, List.getElem?_drop]
  have e : 3 + (2 * i + 1) = 4 + 2 * i := by omega
  rw [e]

theorem byte_eq_sum (x : Nat) (hx : x < 256) :
    x = ∑ j ∈ Finset.range 8, bitVal (x.testBit (7 - j)) * 2 ^ (7 - j) := by
  interval_cases x <;> decide

/-! ## Synthetic waveforms -/

theorem pulseEnv_wait (high : Nat → Int) (hh : ∀ i, 0 ≤ high i ∧ high i < 2147483648)
    (fuel n : Nat) (hf : 0 < fuel) (s : St) (ht : s.t = 2 * n) (hg : s.g = n) :
    wait_for_signal (pulseEnv high) DHT_DATA_PIN (waitLevel n) 100 fuel s =
      some (pulseDur high n, { s with t := 2 * (n + 1), g := n + 1 }) := by
  obtain ⟨f, rfl⟩ : ∃ f, fuel = f + 1 := ⟨fuel - 1, by omega⟩
  have e1 : (2 * n + 1) / 2 = n := by omega
  have e2 : (2 * n + 1) % 2 = 1 := by omega
  have hd : 0 ≤ pulseDur high n ∧ pulseDur high n < 2147483648 := by
    unfold pulseDur
    split_ifs
    · exact hh _
    · constructor <;> norm_num
  have hc : (pulseEnv high).clock (2 * n + 1) - (pulseEnv high).clock (2 * n) = pulseDur high n := by
    have e3 : 2 * n / 2 = n := by omega
    have e4 : 2 * n % 2 = 0 := by omega
    simp only [pulseEnv, pulseDur, e1, e2, e3, e4]
    simp
  unfold wait_for_signal
  rw [waitLoop]
  have hgp : (pulseEnv high).gpio n DHT_DATA_PIN = waitLevel n := rfl
  simp only [ht, hg, hgp, ne_eq, not_true_eq_false, ↓reduceIte, hc,
    toInt32_of_fits hd.1 hd.2]
  have e3 : 2 * n + 1 + 1 = 2 * (n + 1) := by omega
  rw [e3]

theorem pulseEnv_waitSeq (high : Nat → Int) (hh : ∀ i, 0 ≤ high i ∧ high i < 2147483648)
    (fuel : Nat) (hf : 0 < fuel) :
    ∀ (n k : Nat) (s : St), s.t = 2 * k → s.g = k →
      waitSeq (pulseEnv high) fuel n k s =
        some (pulseResults high n k, { s with t := 2 * (k + n), g := k + n }) := by
  intro n
  induction n with
  | zero =>
    intro k s ht hg
    simp only [waitSeq, pulseResults, Nat.add_zero]
    rw [← ht, ← hg]
  | succ n ih =>
    intro k s ht hg
    have hd : pulseDur high k ≠ -1 := by
      unfold pulseDur
      split_ifs
      · have := (hh ((k - 4) / 2)).1; omega
      · norm_num
    rw [waitSeq, pulseEnv_wait high hh fuel k hf s ht hg]
    simp only [hd, ↓reduceIte]
    rw [ih (k + 1) _ rfl rfl]
    simp only [pulseResults, Option.some.injEq, Prod.mk.injEq, true_and]
    have e : k + 1 + n = k + (n + 1) := by omega
    rw [e]

theorem pulseResults_length (high : Nat → Int) :
    ∀ (n k : Nat), (pulseResults high n k).length = n
  | 0, _ => rfl
  | n + 1, k => by simp [pulseResults, pulseResults_length high n (k + 1)]

theorem pulseResults_getD (high : Nat → Int) :
    ∀ (n k j : Nat), j < n → (pulseResults high n k).getD j 0 = pulseDur high (k + j)
  | 0, _, _, h => by omega
  | n + 1, k, 0, _ => by simp [pulseResults]
  | n + 1, k, j + 1, h => by
    have := pulseResults_getD high n (k + 1) j (by omega)
    simp only [List.getD_eq_getElem?_getD] at this
    simp only [pulseResults, List.getD_eq_getElem?_getD, List.getElem?_cons_succ, this]
    congr 1
    omega

theorem pulseResults_highDuration (high : Nat → Int) (i : Nat) (hi : i < 40) :
    highDuration (pulseResults high 83 0) i = high i := by
  unfold highDuration
  rw [pulseResults_getD high 83 0 (4 + 2 * i) (by omega)]
  unfold pulseDur
  have h1 : 3 ≤ 0 + (4 + 2 * i) ∧ (0 + (4 + 2 * i)) % 2 = 0 := by omega
  have h2 : (0 + (4 + 2 * i) - 4) / 2 = i := by omega
  simp only [h1, and_self, ↓reduceIte, h2]

theorem wireBit_of_byte (l : List Nat) (k m : Nat) (hm : m < 8) :
    wireBit l (8 * k + (7 - m)) = (l.getD k 0).testBit m := by
  unfold wireBit
  have e1 : (8 * k + (7 - m)) / 8 = k := by omega
  have e2 : 7 - (8 * k + (7 - m)) % 8 = m := by omega
  rw [e1, e2]

theorem list_eq_of_getD (l1 l2 : List Nat) (hl : l1.length = l2.length)
    (h : ∀ k, k < l1.length → l1.getD k 0 = l2.getD k 0) : l1 = l2 := by
  apply List.ext_getElem hl
  intro n h1 h2
  have := h n h1
  simpa [List.getD_eq_getElem?_getD, List.getElem?_eq_getElem h1, List.getElem?_eq_getElem h2]
    using this

/-- A buffer of 5 bytes is determined by its 40 wire bits. -/
theorem bytes_eq_of_wireBit (l1 l2 : List Nat) (h1 : l1.length = 5) (h2 : l2.length = 5)
    (b1 : ∀ k, l1.getD k 0 < 256) (b2 : ∀ k, l2.getD k 0 < 256)
    (h : ∀ i, i < 40 → wireBit l1 i = wireBit l2 i) : l1 = l2 := by
  apply list_eq_of_getD l1 l2 (by rw [h1, h2])
  intro k hk
  apply Nat.eq_of_testBit_eq
  intro m
  by_cases hm : m < 8
  · rw [← wireBit_of_byte l1 k m hm, ← wireBit_of_byte l2 k m hm]
    exact h _ (by omega)
  · have p : (256 : Nat) ≤ 2 ^ m := by
      calc (256 : Nat) = 2 ^ 8 := by norm_num
        _ ≤ 2 ^ m := Nat.pow_le_pow_right (by norm_num) (by omega)
    rw [Nat.testBit_lt_two_pow (Nat.lt_of_lt_of_le (b1 k) p),
      Nat.testBit_lt_two_pow (Nat.lt_of_lt_of_le (b2 k) p)]

/-- The waveform of 5 bytes is captured as exactly these 5 bytes. -/
theorem captured_waveform (bytes : List Nat) (hl : bytes.length = 5)
    (hb : ∀ k, bytes.getD k 0 < 256) :
    captured (pulseResults (fun i => if wireBit bytes i then 70 else 26) 83 0) = bytes := by
  apply bytes_eq_of_wireBit _ _ (captured_length _) hl (captured_lt _) hb
  intro i hi
  have h := captured_wireBit (pulseResults (fun i => if wireBit bytes i then 70 else 26) 83 0)
    (pulseResults_length _ 83 0) i hi
  rw [pulseResults_highDuration _ i hi] at h
  cases hw : wireBit bytes i
  · simp only [hw, Bool.false_eq_true, ↓reduceIte] at h
    cases hc : wireBit (captured (pulseResults (fun i => if wireBit bytes i then 70 else 26) 83 0)) i
    · rfl
    · exact absurd (h.mp hc) (by norm_num)
  · simp only [hw, ↓reduceIte] at h
    exact h.mpr (by norm_num)

theorem waveform_high_fits (bytes : List Nat) (i : Nat) :
    0 ≤ (fun i => if wireBit bytes i then (70 : Int) else 26) i ∧
      (fun i => if wireBit bytes i then (70 : Int) else 26) i < 2147483648 := by
  simp only
  split_ifs <;> constructor <;> norm_num

/-- Decoding the waveform of 5 bytes: the run validates exactly these bytes. -/
theorem fetch_waveform (bytes : List Nat) (hl : bytes.length = 5)
    (hb : ∀ k, bytes.getD k 0 < 256) (fuel : Nat) (hf : 0 < fuel) (temp_out hum_out : Int)
    (s : St) (ht : s.t = 0) (hg : s.g = 0) :
    fetch_dht11_data (waveform bytes) fuel temp_out hum_out s =
      some (validate bytes temp_out hum_out, endState) := by
  have hs := pulseEnv_waitSeq _ (waveform_high_fits bytes) fuel hf 83 0 (hostStart s) ht hg
  have := fetch_of_waitSeq (waveform bytes) fuel temp_out hum_out s _ _ hs
  rw [this, captured_waveform bytes hl hb]
  rfl

/-! ## Termination and frame conditions -/

/-- Under a strictly increasing clock a wait returns after at most
`timeout_us + 1` polls, whatever the line does. -/
theorem wait_total (env : Env) (hstrict : ∀ k, env.clock k < env.clock (k + 1))
    (pin lvl timeout_us : Int) (s : St) :
    ∃ r j, j ≤ timeout_us.toNat ∧ ∀ fuel, timeout_us.toNat < fuel →
      wait_for_signal env pin lvl timeout_us fuel s = some (r, afterPolls s j) := by
  have h1 := hstrict s.t
  obtain ⟨r, s', hr⟩ := waitLoop_terminates env pin lvl timeout_us (env.clock s.t) hstrict
    timeout_us.toNat { s with t := s.t + 1 } (by
      have := Int.self_le_toNat timeout_us
      simp only
      omega)
  obtain ⟨j, hj, hs, _⟩ := waitLoop_inv env pin lvl timeout_us _ _ _ r s' hr
  refine ⟨r, j, by omega, ?_⟩
  intro fuel hf
  have := waitLoop_mono env pin lvl timeout_us (env.clock s.t) _ fuel _ _ (by omega) hr
  unfold wait_for_signal
  rw [this, hs]
  simp only [afterPolls, Option.some.injEq, Prod.mk.injEq, true_and, St.mk.injEq, and_true]
  omega

theorem captureLoop_frame (env : Env) (fuel : Nat) :
    ∀ (n i : Nat) (bits : List Nat) (s s' : St) (x : Option (List Nat)),
      captureLoop env fuel n i bits s = some (x, s') →
      s'.mode = s.mode ∧ s'.level = s.level := by
  intro n
  induction n with
  | zero =>
    intro i bits s s' x h
    simp only [captureLoop, Option.some.injEq, Prod.mk.injEq] at h
    rw [← h.2]
    exact ⟨rfl, rfl⟩
  | succ n ih =>
    intro i bits s s' x h
    rw [captureLoop] at h
    split at h
    · simp at h
    · rename_i r1 s1 hw1
      have f1 := wait_for_signal_frame env _ _ _ fuel s r1 s1 hw1
      split_ifs at h with hr1
      · simp only [Option.some.injEq, Prod.mk.injEq] at h
        rw [← h.2]; exact f1
      · split at h
        · simp at h
        · rename_i d s2 hw2
          have f2 := wait_for_signal_frame env _ _ _ fuel s1 d s2 hw2
          split_ifs at h with hr2
          · simp only [Option.some.injEq, Prod.mk.injEq] at h
            rw [← h.2]
            exact ⟨f2.1.trans f1.1, f2.2.trans f1.2⟩
          · have f3 := ih _ _ _ _ _ h
            exact ⟨f3.1.trans (f2.1.trans f1.1), f3.2.trans (f2.2.trans f1.2)⟩

theorem validate_ret (bits : List Nat) (temp_out hum_out : Int) :
    (validate bits temp_out hum_out).ret = 0 ∨ (validate bits temp_out hum_out).ret = -2 := by
  unfold validate
  split_ifs
  · exact Or.inl rfl
  · exact Or.inr rfl

/-- Every return of a run leaves the data line in input mode with level 1 last
written, and the return code is 0, -1 or -2. -/
theorem fetch_frame (env : Env) (fuel : Nat) (temp_out hum_out : Int) (s s' : St)
    (res : FetchResult) (h : fetch_dht11_data env fuel temp_out hum_out s = some (res, s')) :
    s'.mode = GpioMode.input ∧ s'.level = 1 ∧ (res.ret = 0 ∨ res.ret = -1 ∨ res.ret = -2) := by
  unfold fetch_dht11_data at h
  simp only at h
  split at h
  · simp at h
  · rename_i r1 s1 hw1
    have f1 := wait_for_signal_frame env _ _ _ fuel _ r1 s1 hw1
    split_ifs at h with hr1
    · simp only [Option.some.injEq, Prod.mk.injEq] at h
      rw [← h.2, ← h.1]
      exact ⟨f1.1, f1.2, Or.inr (Or.inl rfl)⟩
    · split at h
      · simp at h
      · rename_i r2 s2 hw2
        have f2 := wait_for_signal_frame env _ _ _ fuel _ r2 s2 hw2
        split_ifs at h with hr2
        · simp only [Option.some.injEq, Prod.mk.injEq] at h
          rw [← h.2, ← h.1]
          exact ⟨f2.1.trans f1.1, f2.2.trans f1.2, Or.inr (Or.inl rfl)⟩
        · split at h
          · simp at h
          · rename_i r3 s3 hw3
            have f3 := wait_for_signal_frame env _ _ _ fuel _ r3 s3 hw3
            split_ifs at h with hr3
            · simp only [Option.some.injEq, Prod.mk.injEq] at h
              rw [← h.2, ← h.1]
              exact ⟨f3.1.trans (f2.1.trans f1.1), f3.2.trans (f2.2.trans f1.2),
                Or.inr (Or.inl rfl)⟩
            · split at h
              · simp at h
              · rename_i s4 hc
                have f4 := captureLoop_frame env fuel _ _ _ _ _ _ hc
                simp only [Option.some.injEq, Prod.mk.injEq] at h
                rw [← h.2, ← h.1]
                exact ⟨f4.1.trans (f3.1.trans (f2.1.trans f1.1)),
                  f4.2.trans (f3.2.trans (f2.2.trans f1.2)), Or.inr (Or.inl rfl)⟩
              · rename_i bits s4 hc
                have f4 := captureLoop_frame env fuel _ _ _ _ _ _ hc
                simp only [Option.some.injEq, Prod.mk.injEq] at h
                rw [← h.2, ← h.1]
                refine ⟨f4.1.trans (f3.1.trans (f2.1.trans f1.1)),
                  f4.2.trans (f3.2.trans (f2.2.trans f1.2)), ?_⟩
                rcases validate_ret bits temp_out hum_out with hv | hv
                · exact Or.inl hv
                · exact Or.inr (Or.inr hv)

/-- With the fixed timeout 100 and a strictly increasing clock, a wait returns
within 101 polls. -/
theorem wait100_total (env : Env) (hstrict : ∀ k, env.clock k < env.clock (k + 1))
    (fuel : Nat) (hf : 100 < fuel) (pin lvl : Int) (s : St) :
    ∃ r s', wait_for_signal env pin lvl 100 fuel s = some (r, s') ∧ s'.g ≤ s.g + 101 := by
  obtain ⟨r, j, hj, hw⟩ := wait_total env hstrict pin lvl 100 s
  have e : (100 : Int).toNat = 100 := rfl
  rw [e] at hj hw
  refine ⟨r, afterPolls s j, hw fuel hf, ?_⟩
  simp only [afterPolls]
  omega

theorem captureLoop_total (env : Env) (hstrict : ∀ k, env.clock k < env.clock (k + 1))
    (fuel : Nat) (hf : 100 < fuel) :
    ∀ (n i : Nat) (bits : List Nat) (s : St),
      ∃ x s', captureLoop env fuel n i bits s = some (x, s') ∧ s'.g ≤ s.g + 202 * n := by
  intro n
  induction n with
  | zero => intro i bits s; exact ⟨some bits, s, rfl, by omega⟩
  | succ n ih =>
    intro i bits s
    obtain ⟨r1, s1, hw1, g1⟩ := wait100_total env hstrict fuel hf DHT_DATA_PIN 1 s
    obtain ⟨d, s2, hw2, g2⟩ := wait100_total env hstrict fuel hf DHT_DATA_PIN 0 s1
    obtain ⟨x, s3, hc, g3⟩ := ih (i + 1) (storeBit bits i d) s2
    rw [captureLoop, hw1]
    by_cases hr1 : r1 = -1
    · exact ⟨none, s1, by simp only [hr1, ↓reduceIte], by omega⟩
    · by_cases hr2 : d = -1
      · exact ⟨none, s2, by simp only [hr1, ↓reduceIte, hw2, hr2], by omega⟩
      · exact ⟨x, s3, by simp only [hr1, ↓reduceIte, hw2, hr2, hc], by omega⟩

/-- Under a strictly increasing clock every run returns, after at most
`83 * 101` polls of the line. -/
theorem fetch_total (env : Env) (hstrict : ∀ k, env.clock k < env.clock (k + 1))
    (fuel : Nat) (hf : 100 < fuel) (temp_out hum_out : Int) (s : St) :
    ∃ res s', fetch_dht11_data env fuel temp_out hum_out s = some (res, s') ∧
      s'.g ≤ s.g + 83 * 101 := by
  obtain ⟨r1, s1, hw1, g1⟩ := wait100_total env hstrict fuel hf DHT_DATA_PIN 0 (hostStart s)
  obtain ⟨r2, s2, hw2, g2⟩ := wait100_total env hstrict fuel hf DHT_DATA_PIN 1 s1
  obtain ⟨r3, s3, hw3, g3⟩ := wait100_total env hstrict fuel hf DHT_DATA_PIN 0 s2
  obtain ⟨x, s4, hc, g4⟩ := captureLoop_total env hstrict fuel hf 40 0 [0, 0, 0, 0, 0] s3
  have g0 : (hostStart s).g = s.g := rfl
  unfold fetch_dht11_data
  simp only [hw1]
  by_cases hr1 : r1 = -1
  · exact ⟨_, s1, by simp only [hr1, ↓reduceIte]; rfl, by omega⟩
  · by_cases hr2 : r2 = -1
    · exact ⟨_, s2, by simp only [hr1, ↓reduceIte, hw2, hr2]; rfl, by omega⟩
    · by_cases hr3 : r3 = -1
      · exact ⟨_, s3, by simp only [hr1, ↓reduceIte, hw2, hr2, hw3, hr3]; rfl, by omega⟩
      · cases x with
        | none => exact ⟨_, s4, by simp only [hr1, ↓reduceIte, hw2, hr2, hw3, hr3, hc]; rfl, by omega⟩
        | some bits =>
          exact ⟨_, s4, by simp only [hr1, ↓reduceIte, hw2, hr2, hw3, hr3, hc]; rfl, by omega⟩

/-! ## Validation -/

theorem mask_eq_mod (x : Nat) : x &&& 0xFF = x % 256 := by
  have h := Nat.and_pow_two_sub_one_eq_mod x 8
  norm_num at h
  exact h

theorem validate_ret_zero_iff (bits : List Nat) (temp_out hum_out : Int) :
    (validate bits temp_out hum_out).ret = 0 ↔ bits.getD 4 0 = sumMod256 bits := by
  unfold validate sumMod256
  rw [mask_eq_mod]
  split_ifs with h
  · exact ⟨fun _ => h, fun _ => rfl⟩
  · exact ⟨fun h0 => absurd h0 (by simp), fun h0 => absurd h0 h⟩

theorem validate_accept (bits : List Nat) (temp_out hum_out : Int)
    (h : bits.getD 4 0 = sumMod256 bits) :
    validate bits temp_out hum_out =
      { ret := 0, temp_out := (bits.getD 2 0 : Int), hum_out := (bits.getD 0 0 : Int) } := by
  unfold validate
  unfold sumMod256 at h
  rw [mask_eq_mod, if_pos h]

theorem validate_reject (bits : List Nat) (temp_out hum_out : Int)
    (h : bits.getD 4 0 ≠ sumMod256 bits) :
    validate bits temp_out hum_out = { ret := -2, temp_out := temp_out, hum_out := hum_out } := by
  unfold validate
  unfold sumMod256 at h
  rw [mask_eq_mod, if_neg h]

theorem waveform_waitSeq (bytes : List Nat) (fuel : Nat) (hf : 0 < fuel) (s : St)
    (ht : s.t = 0) (hg : s.g = 0) :
    waitSeq (waveform bytes) fuel 83 0 (hostStart s) =
      some (pulseResults (fun i => if wireBit bytes i then 70 else 26) 83 0, endState) :=
  pulseEnv_waitSeq _ (waveform_high_fits bytes) fuel hf 83 0 (hostStart s) ht hg

theorem flip_ne (x k : Nat) : x ^^^ (1 <<< k) ≠ x := by
  intro h
  have := congrArg (fun y => y.testBit k) h
  simp only [Nat.testBit_xor, Nat.one_shiftLeft, Nat.testBit_two_pow_self] at this
  cases hx : x.testBit k <;> simp [hx] at this

theorem flip_lt (x k : Nat) (hx : x < 256) (hk : k < 8) : x ^^^ (1 <<< k) < 256 := by
  have e : (256 : Nat) = 2 ^ 8 := by norm_num
  rw [e] at hx ⊢
  apply Nat.xor_lt_two_pow hx
  rw [Nat.one_shiftLeft]
  exact Nat.pow_lt_pow_right (by norm_num) hk

theorem flipChecksumBit_getD (bits : List Nat) (hl : bits.length = 5) (k : Nat) :
    (flipChecksumBit bits k).getD 0 0 = bits.getD 0 0 ∧
    (flipChecksumBit bits k).getD 1 0 = bits.getD 1 0 ∧
    (flipChecksumBit bits k).getD 2 0 = bits.getD 2 0 ∧
    (flipChecksumBit bits k).getD 3 0 = bits.getD 3 0 ∧
    (flipChecksumBit bits k).getD 4 0 = bits.getD 4 0 ^^^ (1 <<< k) := by
  unfold flipChecksumBit
  simp [List.getElem?_set, hl]

/-- C1: a run whose 83 waits all succeed is accepted (returns 0) exactly when
`bits[4]` equals the sum of `bits[0..3]` modulo 256 and returns -2 otherwise; the
`int` sum of the four bytes does not overflow and its mask with `0xFF` is the
sum modulo 256. The same equivalence holds for the validation of any buffer. -/
theorem fetch_checksum_acceptance (env : Env) (fuel : Nat) (temp_out hum_out : Int)
    (s s' : St) (rs : List Int)
    (h : waitSeq env fuel 83 0 (hostStart s) = some (rs, s')) :
    (captured rs).length = 5 ∧
    (captured rs).getD 0 0 + (captured rs).getD 1 0 + (captured rs).getD 2 0 +
      (captured rs).getD 3 0 < 2 ^ 31 ∧
    ((captured rs).getD 0 0 + (captured rs).getD 1 0 + (captured rs).getD 2 0 +
      (captured rs).getD 3 0) &&& 0xFF = sumMod256 (captured rs) ∧
    (∃ res, fetch_dht11_data env fuel temp_out hum_out s = some (res, s') ∧
      (res.ret = 0 ↔ (captured rs).getD 4 0 = sumMod256 (captured rs)) ∧
      (res.ret ≠ 0 → res.ret = -2)) ∧
    ∀ bits : List Nat,
      ((validate bits temp_out hum_out).ret = 0 ↔ bits.getD 4 0 = sumMod256 bits) ∧
      ((validate bits temp_out hum_out).ret ≠ 0 → (validate bits temp_out hum_out).ret = -2) := by
  refine ⟨captured_length rs, ?_, mask_eq_mod _, ⟨_, fetch_of_waitSeq env fuel _ _ s s' rs h,
    validate_ret_zero_iff _ _ _, ?_⟩, fun bits => ⟨validate_ret_zero_iff _ _ _, ?_⟩⟩
  · have h0 := captured_lt rs 0
    have h1 := captured_lt rs 1
    have h2 := captured_lt rs 2
    have h3 := captured_lt rs 3
    omega
  · intro hne
    rcases validate_ret (captured rs) temp_out hum_out with hv | hv
    · exact absurd hv hne
    · exact hv
  · intro hne
    rcases validate_ret bits temp_out hum_out with hv | hv
    · exact absurd hv hne
    · exact hv

/-- Scenarios A and C: the waveform of `[0x2D,0x00,0x16,0x00,0x43]` is accepted,
the one of `[0x2D,0x00,0x16,0x00,0x44]` returns -2. -/
theorem fetch_checksum_acceptance_witness :
    waitSeq (waveform scenarioA) 1 83 0 (hostStart bootState) =
      some (pulseResults (fun i => if wireBit scenarioA i then 70 else 26) 83 0, endState) ∧
    waitSeq (waveform scenarioC) 1 83 0 (hostStart bootState) =
      some (pulseResults (fun i => if wireBit scenarioC i then 70 else 26) 83 0, endState) ∧
    (∃ res, fetch_dht11_data (waveform scenarioA) 1 0 0 bootState = some (res, endState) ∧
      res.ret = 0) ∧
    (∃ res, fetch_dht11_data (waveform scenarioC) 1 0 0 bootState = some (res, endState) ∧
      res.ret = -2) := by
  have hA := waveform_waitSeq scenarioA 1 (by decide) bootState rfl rfl
  have hC := waveform_waitSeq scenarioC 1 (by decide) bootState rfl rfl
  have cA := captured_waveform scenarioA rfl (by
    intro k
    match k with
    | 0 | 1 | 2 | 3 | 4 => decide
    | k + 5 => simp [scenarioA])
  have cC := captured_waveform scenarioC rfl (by
    intro k
    match k with
    | 0 | 1 | 2 | 3 | 4 => decide
    | k + 5 => simp [scenarioC])
  refine ⟨hA, hC, ?_, ?_⟩
  · obtain ⟨res, hres, hiff, _⟩ :=
      (fetch_checksum_acceptance (waveform scenarioA) 1 0 0 bootState endState _ hA).2.2.2.1
    refine ⟨res, hres, hiff.mpr ?_⟩
    rw [cA]
    decide
  · obtain ⟨res, hres, hiff, hne⟩ :=
      (fetch_checksum_acceptance (waveform scenarioC) 1 0 0 bootState endState _ hC).2.2.2.1
    refine ⟨res, hres, hne ?_⟩
    intro h0
    have h1 := hiff.mp h0
    rw [cC] at h1
    revert h1
    decide

/-- C2: a run whose 83 waits all succeed and whose buffer passes the checksum
returns 0 with `*hum_out = bits[0]` and `*temp_out = bits[2]`; any buffer that
passes the checksum with the same `bits[0]` and `bits[2]` validates to the same
result, whatever `bits[1]`, `bits[3]` and the previous cell contents are. -/
theorem fetch_reading_of_checksum (env : Env) (fuel : Nat) (temp_out hum_out : Int)
    (s s' : St) (rs : List Int)
    (h : waitSeq env fuel 83 0 (hostStart s) = some (rs, s'))
    (hsum : (captured rs).getD 4 0 = sumMod256 (captured rs)) :
    fetch_dht11_data env fuel temp_out hum_out s =
      some ({ ret := 0, temp_out := ((captured rs).getD 2 0 : Int),
              hum_out := ((captured rs).getD 0 0 : Int) }, s') ∧
    ∀ (bits : List Nat) (t0 h0 : Int), bits.getD 4 0 = sumMod256 bits →
      bits.getD 0 0 = (captured rs).getD 0 0 → bits.getD 2 0 = (captured rs).getD 2 0 →
      validate bits t0 h0 =
        { ret := 0, temp_out := ((captured rs).getD 2 0 : Int),
          hum_out := ((captured rs).getD 0 0 : Int) } := by
  constructor
  · rw [fetch_of_waitSeq env fuel _ _ s s' rs h, validate_accept _ _ _ hsum]
  · intro bits t0 h0 hb e0 e2
    rw [validate_accept _ _ _ hb, e0, e2]

/-- Scenario A: bytes `[0x2D,0x00,0x16,0x00,0x43]` give humidity 45 and
temperature 22. -/
theorem fetch_reading_of_checksum_witness :
    waitSeq (waveform scenarioA) 1 83 0 (hostStart bootState) =
      some (pulseResults (fun i => if wireBit scenarioA i then 70 else 26) 83 0, endState) ∧
    captured (pulseResults (fun i => if wireBit scenarioA i then 70 else 26) 83 0) = scenarioA ∧
    fetch_dht11_data (waveform scenarioA) 1 0 0 bootState =
      some ({ ret := 0, temp_out := 22, hum_out := 45 }, endState) := by
  have hA := waveform_waitSeq scenarioA 1 (by decide) bootState rfl rfl
  have cA := captured_waveform scenarioA rfl (by
    intro k
    match k with
    | 0 | 1 | 2 | 3 | 4 => decide
    | k + 5 => simp [scenarioA])
  refine ⟨hA, cA, ?_⟩
  have := (fetch_reading_of_checksum (waveform scenarioA) 1 0 0 bootState endState _ hA
    (by rw [cA]; decide)).1
  rw [cA] at this
  exact this

/-- C7: when the validation accepts a 5-byte buffer, flipping any single bit
`k < 8` of `bits[4]` alone yields a 5-byte buffer that is rejected with -2, and
the run over the waveform of the flipped buffer returns -2 while the run over
the waveform of the original one returns 0. -/
theorem checksum_bit_flip_rejected (bits : List Nat) (hl : bits.length = 5)
    (hb : ∀ j, bits.getD j 0 < 256) (temp_out hum_out : Int) (k : Nat) (hk : k < 8)
    (hacc : (validate bits temp_out hum_out).ret = 0) :
    validate (flipChecksumBit bits k) temp_out hum_out =
      { ret := -2, temp_out := temp_out, hum_out := hum_out } ∧
    (flipChecksumBit bits k).length = 5 ∧
    (∀ j, (flipChecksumBit bits k).getD j 0 < 256) ∧
    (∀ j, j < 4 → (flipChecksumBit bits k).getD j 0 = bits.getD j 0) ∧
    (∀ j, (bits.getD 4 0).testBit j = !((flipChecksumBit bits k).getD 4 0).testBit j ↔ j = k) ∧
    (∃ res, fetch_dht11_data (waveform bits) 1 temp_out hum_out bootState =
      some (res, endState) ∧ res.ret = 0) ∧
    fetch_dht11_data (waveform (flipChecksumBit bits k)) 1 temp_out hum_out bootState =
      some ({ ret := -2, temp_out := temp_out, hum_out := hum_out }, endState) := by
  obtain ⟨g0, g1, g2, g3, g4⟩ := flipChecksumBit_getD bits hl k
  have hlen : (flipChecksumBit bits k).length = 5 := by simp [flipChecksumBit, hl]
  have hlt : ∀ j, (flipChecksumBit bits k).getD j 0 < 256 := by
    intro j
    match j with
    | 0 => rw [g0]; exact hb 0
    | 1 => rw [g1]; exact hb 1
    | 2 => rw [g2]; exact hb 2
    | 3 => rw [g3]; exact hb 3
    | 4 => rw [g4]; exact flip_lt _ _ (hb 4) hk
    | j + 5 =>
      have : (flipChecksumBit bits k).getD (j + 5) 0 = 0 := by
        simp only [List.getD_eq_getElem?_getD]
        rw [List.getElem?_eq_none (by rw [hlen]; omega)]
        rfl
      rw [this]; norm_num
  have hsum : sumMod256 (flipChecksumBit bits k) = sumMod256 bits := by
    unfold sumMod256
    rw [g0, g1, g2, g3]
  have h4 := (validate_ret_zero_iff bits temp_out hum_out).mp hacc
  have hrej : validate (flipChecksumBit bits k) temp_out hum_out =
      { ret := -2, temp_out := temp_out, hum_out := hum_out } := by
    apply validate_reject
    rw [g4, hsum, ← h4]
    exact flip_ne _ _
  refine ⟨hrej, hlen, hlt, ?_, ?_, ?_, ?_⟩
  · intro j hj
    match j, hj with
    | 0, _ => exact g0
    | 1, _ => exact g1
    | 2, _ => exact g2
    | 3, _ => exact g3
  · intro j
    rw [g4, Nat.testBit_xor, Nat.one_shiftLeft, Nat.testBit_two_pow]
    by_cases hjk : k = j
    · subst hjk
      cases (bits.getD 4 0).testBit k <;> simp
    · have : ¬ j = k := fun e => hjk e.symm
      cases (bits.getD 4 0).testBit j <;> simp [hjk, this]
  · refine ⟨_, fetch_waveform bits hl hb 1 (by decide) temp_out hum_out bootState rfl rfl, hacc⟩
  · rw [fetch_waveform _ hlen hlt 1 (by decide) temp_out hum_out bootState rfl rfl, hrej]

/-- Flipping bit 0 of the checksum byte of Scenario A gives `0x42`, rejected. -/
theorem checksum_bit_flip_rejected_witness :
    scenarioA.length = 5 ∧ (∀ j, scenarioA.getD j 0 < 256) ∧ (0 : Nat) < 8 ∧
    (validate scenarioA 0 0).ret = 0 ∧
    flipChecksumBit scenarioA 0 = [0x2D, 0x00, 0x16, 0x00, 0x42] ∧
    validate (flipChecksumBit scenarioA 0) 0 0 = { ret := -2, temp_out := 0, hum_out := 0 } := by
  have hb : ∀ j, scenarioA.getD j 0 < 256 := by
    intro k
    match k with
    | 0 | 1 | 2 | 3 | 4 => decide
    | k + 5 => simp [scenarioA]
  exact ⟨rfl, hb, by decide, by decide, by decide,
    (checksum_bit_flip_rejected scenarioA rfl hb 0 0 0 (by decide) (by decide)).1⟩

/-! ## Capture loop -/

theorem pulseResults_capture_getD (high : Nat → Int) (i : Nat) (hi : i < 40) :
    (pulseResults high 80 3).getD (2 * i + 1) 0 = high i := by
  rw [pulseResults_getD high 80 3 (2 * i + 1) (by omega)]
  unfold pulseDur
  have h1 : 3 ≤ 3 + (2 * i + 1) ∧ (3 + (2 * i + 1)) % 2 = 0 := by omega
  have h2 : (3 + (2 * i + 1) - 4) / 2 = i := by omega
  simp only [h1, and_self, ↓reduceIte, h2]

/-- The capture loop over the waveform of 5 bytes builds exactly these 5 bytes. -/
theorem capturedOf_waveform (bytes : List Nat) (hl : bytes.length = 5)
    (hb : ∀ k, bytes.getD k 0 < 256) :
    capturedOf (pulseResults (fun i => if wireBit bytes i then 70 else 26) 80 3) = bytes := by
  apply bytes_eq_of_wireBit _ _ (capturedOf_length _) hl (capturedOf_lt _) hb
  intro i hi
  have h := capturedOf_wireBit (pulseResults (fun i => if wireBit bytes i then 70 else 26) 80 3)
    (pulseResults_length _ 80 3) i hi
  rw [pulseResults_capture_getD _ i hi] at h
  cases hw : wireBit bytes i
  · simp only [hw, Bool.false_eq_true, ↓reduceIte] at h
    cases hc : wireBit (capturedOf (pulseResults (fun i => if wireBit bytes i then 70 else 26) 80 3)) i
    · rfl
    · exact absurd (h.mp hc) (by norm_num)
  · simp only [hw, ↓reduceIte] at h
    exact h.mpr (by norm_num)

theorem capturedOf_byte (ds : List Int) (hds : ds.length = 80) (k : Nat) (hk : k < 5) :
    (capturedOf ds).getD k 0 =
      ∑ j ∈ Finset.range 8,
        bitVal (decide (40 < ds.getD (2 * (8 * k + j) + 1) 0)) * 2 ^ (7 - j) := by
  rw [byte_eq_sum _ (capturedOf_lt ds k)]
  apply Finset.sum_congr rfl
  intro j hj
  have hj8 : j < 8 := Finset.mem_range.mp hj
  have e : 8 * k + (7 - (7 - j)) = 8 * k + j := by omega
  have hw := wireBit_of_byte (capturedOf ds) k (7 - j) (by omega)
  rw [e] at hw
  have hc := capturedOf_wireBit ds hds (8 * k + j) (by omega)
  have hbit : ((capturedOf ds).getD k 0).testBit (7 - j) =
      decide (40 < ds.getD (2 * (8 * k + j) + 1) 0) := by
    rw [← hw, Bool.eq_iff_iff, hc, decide_eq_true_iff]
  conv_lhs => rw [hbit]

/-- C3: in a capture loop whose 80 waits succeed, bit `i` of the buffer is 1
exactly when the second wait of iteration `i` measured more than 40; a duration
of exactly 40 decodes as 0 and one of exactly 41 as 1; and the store of
iteration `i` alone sets bit `i` of a 5-byte buffer exactly when the measured
duration exceeds 40, leaving a bit already set as it is. -/
theorem capture_bit_threshold (env : Env) (fuel : Nat) (s s' : St) (ds : List Int)
    (h : waitSeq env fuel 80 3 s = some (ds, s')) (i : Nat) (hi : i < 40) :
    ∃ bits, captureLoop env fuel 40 0 [0, 0, 0, 0, 0] s = some (some bits, s') ∧
      (wireBit bits i = true ↔ 40 < ds.getD (2 * i + 1) 0) ∧
      (ds.getD (2 * i + 1) 0 = 40 → wireBit bits i = false) ∧
      (ds.getD (2 * i + 1) 0 = 41 → wireBit bits i = true) ∧
      ∀ (b : List Nat) (d : Int), b.length = 5 →
        (wireBit (storeBit b i d) i = true ↔ wireBit b i = true ∨ 40 < d) := by
  have hc := captureLoop_of_waitSeq env fuel 40 0 [0, 0, 0, 0, 0] s s' ds h
  have hds := waitSeq_length env fuel 80 3 s s' ds h
  have hw := capturedOf_wireBit ds hds i hi
  refine ⟨capturedOf ds, hc, hw, ?_, ?_, ?_⟩
  · intro h40
    cases hb : wireBit (capturedOf ds) i
    · rfl
    · have := hw.mp hb
      omega
  · intro h41
    exact hw.mpr (by omega)
  · intro b d hb
    unfold wireBit
    rw [storeBit_testBit b i d (i / 8) (7 - i % 8) (by omega) (by omega)]
    simp

/-- High pulses of exactly 40 us (iteration 0) and exactly 41 us (iteration 1). -/
theorem capture_bit_threshold_witness :
    waitSeq (pulseEnv boundaryHigh) 1 80 3 afterResponse =
      some (pulseResults boundaryHigh 80 3, endState) ∧
    (pulseResults boundaryHigh 80 3).getD 1 0 = 40 ∧
    (pulseResults boundaryHigh 80 3).getD 3 0 = 41 ∧
    (∃ bits, captureLoop (pulseEnv boundaryHigh) 1 40 0 [0, 0, 0, 0, 0] afterResponse =
        some (some bits, endState) ∧ wireBit bits 0 = false) ∧
    (∃ bits, captureLoop (pulseEnv boundaryHigh) 1 40 0 [0, 0, 0, 0, 0] afterResponse =
        some (some bits, endState) ∧ wireBit bits 1 = true) := by
  have hfit : ∀ i, 0 ≤ boundaryHigh i ∧ boundaryHigh i < 2147483648 := by
    intro i
    unfold boundaryHigh
    split_ifs <;> constructor <;> norm_num
  have hs : waitSeq (pulseEnv boundaryHigh) 1 80 3 afterResponse =
      some (pulseResults boundaryHigh 80 3, endState) :=
    pulseEnv_waitSeq boundaryHigh hfit 1 (by decide) 80 3 afterResponse rfl rfl
  have d0 : (pulseResults boundaryHigh 80 3).getD (2 * 0 + 1) 0 = 40 :=
    pulseResults_capture_getD boundaryHigh 0 (by decide)
  have d1 : (pulseResults boundaryHigh 80 3).getD (2 * 1 + 1) 0 = 41 :=
    pulseResults_capture_getD boundaryHigh 1 (by decide)
  refine ⟨hs, d0, d1, ?_, ?_⟩
  · obtain ⟨bits, hb, _, h40, _, _⟩ :=
      capture_bit_threshold (pulseEnv boundaryHigh) 1 afterResponse endState _ hs 0 (by decide)
    exact ⟨bits, hb, h40 d0⟩
  · obtain ⟨bits, hb, _, _, h41, _⟩ :=
      capture_bit_threshold (pulseEnv boundaryHigh) 1 afterResponse endState _ hs 1 (by decide)
    exact ⟨bits, hb, h41 d1⟩

/-- C4: a capture loop whose 80 waits succeed builds a buffer of exactly 5 bytes
with byte `k` equal to the sum over `j < 8` of `b (8k+j) * 2^(7-j)`, where `b i`
is the bit classified in iteration `i`; every write index `i / 8` is below 5 and
distinct iterations write distinct bit positions; and the capture loop over the
waveform that encodes any 5 bytes most significant bit first builds exactly
those 5 bytes. -/
theorem capture_packs_msb_first (env : Env) (fuel : Nat) (s s' : St) (ds : List Int)
    (h : waitSeq env fuel 80 3 s = some (ds, s')) :
    (∃ bits, captureLoop env fuel 40 0 [0, 0, 0, 0, 0] s = some (some bits, s') ∧
      bits.length = 5 ∧
      ∀ k, k < 5 → bits.getD k 0 =
        ∑ j ∈ Finset.range 8,
          bitVal (decide (40 < ds.getD (2 * (8 * k + j) + 1) 0)) * 2 ^ (7 - j)) ∧
    (∀ i, i < 40 → i / 8 < 5) ∧
    (∀ i i', i < 40 → i' < 40 → i / 8 = i' / 8 → 7 - i % 8 = 7 - i' % 8 → i = i') ∧
    ∀ bytes : List Nat, bytes.length = 5 → (∀ k, bytes.getD k 0 < 256) →
      captureLoop (waveform bytes) 1 40 0 [0, 0, 0, 0, 0] afterResponse =
        some (some bytes, endState) := by
  have hc := captureLoop_of_waitSeq env fuel 40 0 [0, 0, 0, 0, 0] s s' ds h
  have hds := waitSeq_length env fuel 80 3 s s' ds h
  refine ⟨⟨capturedOf ds, hc, capturedOf_length ds, fun k hk => capturedOf_byte ds hds k hk⟩,
    fun i hi => by omega, fun i i' hi hi' h1 h2 => by omega, ?_⟩
  intro bytes hl hb
  have hs : waitSeq (waveform bytes) 1 80 3 afterResponse =
      some (pulseResults (fun i => if wireBit bytes i then 70 else 26) 80 3, endState) :=
    pulseEnv_waitSeq _ (waveform_high_fits bytes) 1 (by decide) 80 3 afterResponse rfl rfl
  have := captureLoop_of_waitSeq (waveform bytes) 1 40 0 [0, 0, 0, 0, 0] afterResponse endState
    _ hs
  rw [this]
  have e := capturedOf_waveform bytes hl hb
  unfold capturedOf at e
  rw [e]

/-- The capture loop over the waveform of Scenario A. -/
theorem capture_packs_msb_first_witness :
    waitSeq (waveform scenarioA) 1 80 3 afterResponse =
      some (pulseResults (fun i => if wireBit scenarioA i then 70 else 26) 80 3, endState) ∧
    captureLoop (waveform scenarioA) 1 40 0 [0, 0, 0, 0, 0] afterResponse =
      some (some [0x2D, 0x00, 0x16, 0x00, 0x43], endState) := by
  have hs : waitSeq (waveform scenarioA) 1 80 3 afterResponse =
      some (pulseResults (fun i => if wireBit scenarioA i then 70 else 26) 80 3, endState) :=
    pulseEnv_waitSeq _ (waveform_high_fits scenarioA) 1 (by decide) 80 3 afterResponse rfl rfl
  have hb : ∀ j, scenarioA.getD j 0 < 256 := by
    intro k
    match k with
    | 0 | 1 | 2 | 3 | 4 => decide
    | k + 5 => simp [scenarioA]
  exact ⟨hs, (capture_packs_msb_first (waveform scenarioA) 1 afterResponse endState _ hs).2.2.2
    scenarioA rfl hb⟩

/-! ## Timeouts -/

/-- C5: when `n < 83` waits of a run have succeeded and the next wait returns -1,
the run returns -1 (not 0, not -2), ends in the state that wait left (no further
sample is read) and leaves `*temp_out` and `*hum_out` as they were. -/
theorem fetch_timeout_aborts (env : Env) (fuel : Nat) (temp_out hum_out : Int)
    (s sn s' : St) (n : Nat) (hn : n < 83) (rs : List Int)
    (hseq : waitSeq env fuel n 0 (hostStart s) = some (rs, sn))
    (hto : wait_for_signal env DHT_DATA_PIN (waitLevel n) 100 fuel sn = some (-1, s')) :
    fetch_dht11_data env fuel temp_out hum_out s =
      some ({ ret := -1, temp_out := temp_out, hum_out := hum_out }, s') ∧
    ∀ res s2, fetch_dht11_data env fuel temp_out hum_out s = some (res, s2) →
      res.ret = -1 ∧ res.ret ≠ 0 ∧ res.ret ≠ -2 ∧ res.temp_out = temp_out ∧
        res.hum_out = hum_out ∧ s2 = s' := by
  have hf := fetch_of_timeout env fuel temp_out hum_out s sn s' n hn rs hseq hto
  refine ⟨hf, ?_⟩
  intro res s2 h2
  rw [hf] at h2
  simp only [Option.some.injEq, Prod.mk.injEq] at h2
  rw [← h2.1, ← h2.2]
  exact ⟨rfl, by simp, by simp, rfl, rfl, rfl⟩

/-- Scenario B: the line stays high, the first response wait times out after 11
polls and the run returns -1. -/
theorem fetch_timeout_aborts_witness :
    (0 : Nat) < 83 ∧
    waitSeq (stuckEnv 1) 101 0 0 (hostStart bootState) = some ([], hostStart bootState) ∧
    wait_for_signal (stuckEnv 1) DHT_DATA_PIN (waitLevel 0) 100 101 (hostStart bootState) =
      some (-1, { t := 12, g := 11, mode := .input, level := 1 }) ∧
    fetch_dht11_data (stuckEnv 1) 101 7 9 bootState =
      some ({ ret := -1, temp_out := 7, hum_out := 9 },
        { t := 12, g := 11, mode := .input, level := 1 }) := by
  have hw : wait_for_signal (stuckEnv 1) DHT_DATA_PIN (waitLevel 0) 100 101 (hostStart bootState) =
      some (-1, { t := 12, g := 11, mode := .input, level := 1 }) := by decide
  exact ⟨by decide, rfl, hw,
    (fetch_timeout_aborts (stuckEnv 1) 101 7 9 bootState _ _ 0 (by decide) [] rfl hw).1⟩

/-! ## The result of a wait -/

theorem clock_mono (env : Env) (hmono : ∀ k, env.clock k ≤ env.clock (k + 1)) (a : Nat) :
    ∀ n, env.clock a ≤ env.clock (a + n)
  | 0 => le_refl _
  | n + 1 => le_trans (clock_mono env hmono a n) (hmono (a + n))

theorem elapsedAt_nonneg (env : Env) (hmono : ∀ k, env.clock k ≤ env.clock (k + 1)) (s : St)
    (j : Nat) : 0 ≤ elapsedAt env s j := by
  unfold elapsedAt
  have := clock_mono env hmono s.t (1 + j)
  rw [← Nat.add_assoc] at this
  omega

theorem wait_of_timeout (env : Env) (pin lvl timeout_us : Int) (s : St) (j fuel : Nat)
    (hj : j < fuel) (h : FirstTimeout env pin lvl timeout_us s j) :
    wait_for_signal env pin lvl timeout_us fuel s = some (-1, afterPolls s j) := by
  unfold wait_for_signal
  rw [waitLoop_timeout env pin lvl timeout_us (env.clock s.t) j { s with t := s.t + 1 } fuel hj
    h.1 h.2.1 h.2.2]
  simp only [afterPolls, Option.some.injEq, Prod.mk.injEq, true_and, St.mk.injEq, and_true]
  omega

theorem wait_of_match (env : Env) (pin lvl timeout_us : Int) (s : St) (j fuel : Nat)
    (hj : j < fuel) (h : FirstMatch env pin lvl timeout_us s j) :
    wait_for_signal env pin lvl timeout_us fuel s =
      some (toInt32 (elapsedAt env s j), afterPolls s j) := by
  unfold wait_for_signal
  rw [waitLoop_match env pin lvl timeout_us (env.clock s.t) j { s with t := s.t + 1 } fuel hj
    h.1 h.2]
  simp only [afterPolls, elapsedAt, Option.some.injEq, Prod.mk.injEq, true_and, St.mk.injEq,
    and_true]
  omega

theorem wait_inv (env : Env) (pin lvl timeout_us : Int) (fuel : Nat) (s s' : St) (r : Int)
    (h : wait_for_signal env pin lvl timeout_us fuel s = some (r, s')) :
    ∃ j, j < fuel ∧ s' = afterPolls s j ∧
      ((r = -1 ∧ FirstTimeout env pin lvl timeout_us s j) ∨
        (r = toInt32 (elapsedAt env s j) ∧ FirstMatch env pin lvl timeout_us s j)) := by
  obtain ⟨j, hj, hs, hr⟩ := waitLoop_inv env pin lvl timeout_us _ fuel _ r s' h
  refine ⟨j, hj, ?_, hr⟩
  rw [hs]
  simp only [afterPolls, St.mk.injEq, and_true]
  omega

theorem timesOut_first (env : Env) (pin lvl timeout_us : Int) (s : St)
    (h : TimesOut env pin lvl timeout_us s) : ∃ j, FirstTimeout env pin lvl timeout_us s j := by
  obtain ⟨j, hmiss, hlate⟩ := h
  have hex : ∃ i, timeout_us < elapsedAt env s i := ⟨j, hlate⟩
  refine ⟨Nat.find hex, ?_, ?_, Nat.find_spec hex⟩
  · intro i hi
    exact hmiss i (le_trans hi (Nat.find_min' hex hlate))
  · intro i hi
    have := Nat.find_min hex hi
    omega

theorem match_first (env : Env) (pin lvl timeout_us : Int) (s : St)
    (hno : ¬ TimesOut env pin lvl timeout_us s) (h : ∃ j, env.gpio (s.g + j) pin = lvl) :
    ∃ j, FirstMatch env pin lvl timeout_us s j := by
  refine ⟨Nat.find h, ?_, Nat.find_spec h⟩
  intro i hi
  refine ⟨Nat.find_min h hi, ?_⟩
  by_contra hlate
  apply hno
  refine ⟨i, ?_, by omega⟩
  intro i' hi'
  exact Nat.find_min h (by omega)

/-- C8 (amended): under a monotonic clock, and provided the elapsed time at the
poll that first sees the target level is below `2^31` us, a wait returns -1
exactly when a clock sample taken after a mismatching poll, before any poll saw
the target level, has `now - start > timeout_us`; the first such sample ends the
wait with -1; a first match at poll `j` ends the wait with the elapsed time at
that poll, which is non-negative, even when an earlier sample had an elapsed
time equal to `timeout_us`; a line already at the target level at the first
poll gives the elapsed time whatever `timeout_us` is. A timeout condition has a
first such sample, and without one a line that reaches the target level has a
first match, so in both cases enough fuel gives the result. -/
theorem wait_for_signal_result (env : Env) (pin lvl timeout_us : Int) (s : St)
    (hmono : ∀ k, env.clock k ≤ env.clock (k + 1))
    (hfit : ∀ j, FirstMatch env pin lvl timeout_us s j → elapsedAt env s j < 2147483648) :
    (∀ fuel r s', wait_for_signal env pin lvl timeout_us fuel s = some (r, s') →
      (r = -1 ↔ TimesOut env pin lvl timeout_us s)) ∧
    (∀ fuel r s', wait_for_signal env pin lvl timeout_us fuel s = some (r, s') → r ≠ -1 →
      ∃ j, FirstMatch env pin lvl timeout_us s j ∧ r = elapsedAt env s j ∧ 0 ≤ r ∧
        s' = afterPolls s j) ∧
    (∀ j, FirstTimeout env pin lvl timeout_us s j → ∀ fuel, j < fuel →
      wait_for_signal env pin lvl timeout_us fuel s = some (-1, afterPolls s j)) ∧
    (∀ j, FirstMatch env pin lvl timeout_us s j → 0 ≤ elapsedAt env s j ∧ ∀ fuel, j < fuel →
      wait_for_signal env pin lvl timeout_us fuel s =
        some (elapsedAt env s j, afterPolls s j)) ∧
    (env.gpio s.g pin = lvl → ∀ fuel, 0 < fuel →
      wait_for_signal env pin lvl timeout_us fuel s =
        some (elapsedAt env s 0, afterPolls s 0)) ∧
    (TimesOut env pin lvl timeout_us s → ∃ j, FirstTimeout env pin lvl timeout_us s j) ∧
    (¬ TimesOut env pin lvl timeout_us s → (∃ j, env.gpio (s.g + j) pin = lvl) →
      ∃ j, FirstMatch env pin lvl timeout_us s j) := by
  have hmatch : ∀ j, FirstMatch env pin lvl timeout_us s j →
      toInt32 (elapsedAt env s j) = elapsedAt env s j := fun j hj =>
    toInt32_of_fits (elapsedAt_nonneg env hmono s j) (hfit j hj)
  refine ⟨?_, ?_, ?_, ?_, ?_, timesOut_first env pin lvl timeout_us s,
    match_first env pin lvl timeout_us s⟩
  · intro fuel r s' h
    obtain ⟨j, _, _, hr⟩ := wait_inv env pin lvl timeout_us fuel s s' r h
    constructor
    · intro hr1
      rcases hr with ⟨_, hto⟩ | ⟨hr2, hm⟩
      · exact ⟨j, hto.1, hto.2.2⟩
      · rw [hmatch j hm] at hr2
        have := elapsedAt_nonneg env hmono s j
        omega
    · rintro ⟨j', hmiss, hlate⟩
      rcases hr with ⟨hr1, _⟩ | ⟨_, hm⟩
      · exact hr1
      · exfalso
        by_cases hjj : j ≤ j'
        · exact hmiss j hjj hm.2
        · have := (hm.1 j' (by omega)).2
          omega
  · intro fuel r s' h hne
    obtain ⟨j, _, hs, hr⟩ := wait_inv env pin lvl timeout_us fuel s s' r h
    rcases hr with ⟨hr1, _⟩ | ⟨hr2, hm⟩
    · exact absurd hr1 hne
    · rw [hmatch j hm] at hr2
      exact ⟨j, hm, hr2, by rw [hr2]; exact elapsedAt_nonneg env hmono s j, hs⟩
  · intro j hto fuel hj
    exact wait_of_timeout env pin lvl timeout_us s j fuel hj hto
  · intro j hm
    refine ⟨elapsedAt_nonneg env hmono s j, ?_⟩
    intro fuel hj
    rw [wait_of_match env pin lvl timeout_us s j fuel hj hm, hmatch j hm]
  · intro hg fuel hf
    have hm : FirstMatch env pin lvl timeout_us s 0 := ⟨fun i hi => by omega, by simpa using hg⟩
    rw [wait_of_match env pin lvl timeout_us s 0 fuel hf hm, hmatch 0 hm]

/-- A first poll that misses with an elapsed time of exactly 100 us does not time
out; the second poll matches and the wait returns 130. -/
theorem wait_for_signal_result_witness :
    (∀ k, exactEnv.clock k ≤ exactEnv.clock (k + 1)) ∧
    (∀ j, FirstMatch exactEnv DHT_DATA_PIN 0 100 bootState j →
      elapsedAt exactEnv bootState j < 2147483648) ∧
    FirstMatch exactEnv DHT_DATA_PIN 0 100 bootState 1 ∧
    elapsedAt exactEnv bootState 0 = 100 ∧
    wait_for_signal exactEnv DHT_DATA_PIN 0 100 2 bootState =
      some (130, afterPolls bootState 1) := by
  have hmono : ∀ k, exactEnv.clock k ≤ exactEnv.clock (k + 1) := by
    intro k
    match k with
    | 0 => decide
    | 1 => decide
    | k + 2 => simp [exactEnv]
  have hfit : ∀ j, FirstMatch exactEnv DHT_DATA_PIN 0 100 bootState j →
      elapsedAt exactEnv bootState j < 2147483648 := by
    intro j _
    simp only [elapsedAt, exactEnv]
    split_ifs <;> omega
  have hm : FirstMatch exactEnv DHT_DATA_PIN 0 100 bootState 1 := by
    refine ⟨?_, by decide⟩
    intro i hi
    have : i = 0 := by omega
    subst this
    decide
  have h := (wait_for_signal_result exactEnv DHT_DATA_PIN 0 100 bootState hmono hfit).2.2.2.1
    1 hm
  exact ⟨hmono, hfit, hm, by decide, h.2 2 (by decide)⟩

/-- C8 as stated fails: over a monotonic clock, with the line at the target level
at the first poll and no timeout condition, the wait returns -1 when the elapsed
time is `2^32 - 1` us. -/
theorem wait_for_signal_wrap_counterexample :
    (∀ k, wrapEnv.clock k ≤ wrapEnv.clock (k + 1)) ∧
    wrapEnv.gpio bootState.g DHT_DATA_PIN = 0 ∧
    elapsedAt wrapEnv bootState 0 = 4294967295 ∧
    ¬ TimesOut wrapEnv DHT_DATA_PIN 0 100 bootState ∧
    wait_for_signal wrapEnv DHT_DATA_PIN 0 100 1 bootState =
      some (-1, afterPolls bootState 0) := by
  refine ⟨?_, rfl, by decide, ?_, by decide⟩
  · intro k
    match k with
    | 0 => decide
    | k + 1 => simp [wrapEnv]
  · rintro ⟨j, hmiss, _⟩
    exact hmiss 0 (Nat.zero_le _) rfl

/-! ## Termination -/

/-- C9: under a clock whose successive samples strictly increase, a wait returns
after at most `timeout_us + 1` polls whatever the line does, and a run, whose
waits all pass the timeout 100, returns one of 0, -1, -2 after at most `83 * 101`
polls. -/
theorem wait_and_fetch_terminate (env : Env)
    (hstrict : ∀ k, env.clock k < env.clock (k + 1)) :
    (∀ (pin lvl timeout_us : Int) (s : St), ∃ r j, j ≤ timeout_us.toNat ∧
      ∀ fuel, timeout_us.toNat < fuel →
        wait_for_signal env pin lvl timeout_us fuel s = some (r, afterPolls s j)) ∧
    (∀ (fuel : Nat) (temp_out hum_out : Int) (s : St), 100 < fuel →
      ∃ res s', fetch_dht11_data env fuel temp_out hum_out s = some (res, s') ∧
        (res.ret = 0 ∨ res.ret = -1 ∨ res.ret = -2) ∧ s'.g ≤ s.g + 83 * 101) := by
  refine ⟨fun pin lvl timeout_us s => wait_total env hstrict pin lvl timeout_us s, ?_⟩
  intro fuel temp_out hum_out s hf
  obtain ⟨res, s', hr, hg⟩ := fetch_total env hstrict fuel hf temp_out hum_out s
  exact ⟨res, s', hr, (fetch_frame env fuel temp_out hum_out s s' res hr).2.2, hg⟩

/-- A line that never reaches the target level: the wait and the run return. -/
theorem wait_and_fetch_terminate_witness :
    (∀ k, (stuckEnv 1).clock k < (stuckEnv 1).clock (k + 1)) ∧
    (∃ r j, j ≤ 100 ∧ wait_for_signal (stuckEnv 1) DHT_DATA_PIN 0 100 101 bootState =
      some (r, afterPolls bootState j)) ∧
    ∃ res s', fetch_dht11_data (stuckEnv 1) 101 0 0 bootState = some (res, s') ∧
      (res.ret = 0 ∨ res.ret = -1 ∨ res.ret = -2) ∧ s'.g ≤ bootState.g + 83 * 101 := by
  have hstrict : ∀ k, (stuckEnv 1).clock k < (stuckEnv 1).clock (k + 1) := by
    intro k
    simp only [stuckEnv]
    push_cast
    omega
  have h := wait_and_fetch_terminate (stuckEnv 1) hstrict
  refine ⟨hstrict, ?_, h.2 101 0 0 bootState (by decide)⟩
  obtain ⟨r, j, hj, hw⟩ := h.1 DHT_DATA_PIN 0 100 bootState
  exact ⟨r, j, hj, hw 101 (by decide)⟩

/-! ## Line configuration -/

/-- C10 (amended): `setup_hardware` leaves the data line an open-drain output
driven high; every return of a run leaves it in input mode with level 1 last
written, and under a strictly increasing clock every run returns, with 0, -1 or
-2. -/
theorem line_released_after_run (env : Env)
    (hstrict : ∀ k, env.clock k < env.clock (k + 1)) (fuel : Nat) (hf : 100 < fuel)
    (temp_out hum_out : Int) (s : St) :
    (setup_hardware s).mode = GpioMode.outputOD ∧ (setup_hardware s).level = 1 ∧
    (∃ res s', fetch_dht11_data env fuel temp_out hum_out s = some (res, s') ∧
      (res.ret = 0 ∨ res.ret = -1 ∨ res.ret = -2) ∧
      s'.mode = GpioMode.input ∧ s'.level = 1) ∧
    ∀ (e : Env) (f : Nat) (res : FetchResult) (s' : St),
      fetch_dht11_data e f temp_out hum_out s = some (res, s') →
      s'.mode = GpioMode.input ∧ s'.level = 1 := by
  refine ⟨rfl, rfl, ?_, ?_⟩
  · obtain ⟨res, s', hr, _⟩ := fetch_total env hstrict fuel hf temp_out hum_out s
    have hfr := fetch_frame env fuel temp_out hum_out s s' res hr
    exact ⟨res, s', hr, hfr.2.2, hfr.1, hfr.2.1⟩
  · intro e f res s' hr
    have hfr := fetch_frame e f temp_out hum_out s s' res hr
    exact ⟨hfr.1, hfr.2.1⟩

/-- A run after `setup_hardware` over a line that stays high. -/
theorem line_released_after_run_witness :
    (∀ k, (stuckEnv 1).clock k < (stuckEnv 1).clock (k + 1)) ∧ (100 : Nat) < 101 ∧
    ∃ res s', fetch_dht11_data (stuckEnv 1) 101 0 0 (setup_hardware bootState) =
        some (res, s') ∧
      (res.ret = 0 ∨ res.ret = -1 ∨ res.ret = -2) ∧
      s'.mode = GpioMode.input ∧ s'.level = 1 := by
  have hstrict : ∀ k, (stuckEnv 1).clock k < (stuckEnv 1).clock (k + 1) := by
    intro k
    simp only [stuckEnv]
    push_cast
    omega
  exact ⟨hstrict, by decide,
    (line_released_after_run (stuckEnv 1) hstrict 101 (by decide) 0 0
      (setup_hardware bootState)).2.2.1⟩

/-- C10 as stated fails: after `setup_hardware` and a successful run the data
line is in input mode, not the open-drain output mode that `setup_hardware`
established. -/
theorem line_not_restored_counterexample :
    (setup_hardware bootState).mode = GpioMode.outputOD ∧
    fetch_dht11_data (waveform scenarioA) 1 0 0 (setup_hardware bootState) =
      some ({ ret := 0, temp_out := 22, hum_out := 45 }, endState) ∧
    endState.mode = GpioMode.input ∧
    endState.mode ≠ (setup_hardware bootState).mode := by
  refine ⟨rfl, ?_, rfl, by decide⟩
  have hb : ∀ j, scenarioA.getD j 0 < 256 := by
    intro k
    match k with
    | 0 | 1 | 2 | 3 | 4 => decide
    | k + 5 => simp [scenarioA]
  rw [fetch_waveform scenarioA rfl hb 1 (by decide) 0 0 (setup_hardware bootState) rfl rfl]
  rfl

/-! ## Obstacle latch -/

theorem iterate_obstacle_handler (flag : Bool) (n : Nat) (hn : 0 < n) :
    Nat.iterate obstacle_handler n flag = true := by
  obtain ⟨m, rfl⟩ : ∃ m, n = m + 1 := ⟨n - 1, by omega⟩
  rw [Function.iterate_succ_apply']
  rfl

theorem report_count (r : FetchResult) : (report r).count Msg.obstacle = 0 := by
  unfold report
  split_ifs <;> simp

/-- C6: after one or more calls of `obstacle_handler` with no drain in between,
the next drain returns true and clears the flag, and a second immediate drain
returns false; so, under a strictly increasing clock, the poll iteration that
follows the calls prints exactly one obstacle line and the following iteration
prints none. -/
theorem latch_coalesces (flag : Bool) (n : Nat) (hn : 0 < n) (env : Env)
    (hstrict : ∀ k, env.clock k < env.clock (k + 1)) (fuel : Nat) (hf : 100 < fuel)
    (s : St) :
    drain (Nat.iterate obstacle_handler n flag) = (true, false) ∧
    drain (drain (Nat.iterate obstacle_handler n flag)).2 = (false, false) ∧
    ∃ l1 s1 l2 s2,
      pollIteration env fuel (Nat.iterate obstacle_handler n flag) s = some (l1, false, s1) ∧
      pollIteration env fuel false s1 = some (l2, false, s2) ∧
      l1.count Msg.obstacle = 1 ∧ l2.count Msg.obstacle = 0 := by
  rw [iterate_obstacle_handler flag n hn]
  refine ⟨rfl, rfl, ?_⟩
  obtain ⟨r1, s1, h1, _⟩ := fetch_total env hstrict fuel hf 0 0 s
  obtain ⟨r2, s2, h2, _⟩ := fetch_total env hstrict fuel hf 0 0 s1
  refine ⟨[Msg.obstacle] ++ report r1, s1, report r2, s2, ?_, ?_, ?_, ?_⟩
  · simp only [pollIteration, h1, drain, ↓reduceIte]
  · simp only [pollIteration, h2, drain, Bool.false_eq_true, ↓reduceIte, List.nil_append]
  · rw [List.count_append, report_count]
    rfl
  · exact report_count r2

/-- Scenario D: two falling edges before a poll iteration. -/
theorem latch_coalesces_witness :
    (0 : Nat) < 2 ∧ (∀ k, (stuckEnv 1).clock k < (stuckEnv 1).clock (k + 1)) ∧
    (100 : Nat) < 101 ∧
    drain (obstacle_handler (obstacle_handler false)) = (true, false) ∧
    drain (drain (obstacle_handler (obstacle_handler false))).2 = (false, false) ∧
    ∃ l1 s1 l2 s2,
      pollIteration (stuckEnv 1) 101 (obstacle_handler (obstacle_handler false)) bootState =
        some (l1, false, s1) ∧
      pollIteration (stuckEnv 1) 101 false s1 = some (l2, false, s2) ∧
      l1.count Msg.obstacle = 1 ∧ l2.count Msg.obstacle = 0 := by
  have hstrict : ∀ k, (stuckEnv 1).clock k < (stuckEnv 1).clock (k + 1) := by
    intro k
    simp only [stuckEnv]
    push_cast
    omega
  have h := latch_coalesces false 2 (by decide) (stuckEnv 1) hstrict 101 (by decide) bootState
  exact ⟨by decide, hstrict, by decide, h.1, h.2.1, h.2.2⟩

end Dht
